import Mathlib

/-!
Verification of the lyrics-archive text pipeline: a shallow embedding of the
text normalizer, the track extraction engine, the record validator and
canonicalizer, the lexical statistics engine, and the snippet locator,
together with theorems settling the behavioural claims about them.

Strings are modelled as Lean `String` (a list of Unicode scalar values);
operations are implemented on `List Char`.  Where the JavaScript source is
code-unit based (`charCodeAt`) the model converts scalar values to UTF-16
code units explicitly.  Lone surrogates (unpaired UTF-16 halves, which Lean
`Char` cannot represent) are outside the model.  JavaScript numbers are
modelled as exact rationals; IEEE-754 rounding and exponent formatting
corners of `String(number)` are outside the model.
-/

/-- The JavaScript `\s` character class (also the set trimmed by
`String.prototype.trim`): tab, LF, VT, FF, CR, space, NBSP, and the Unicode
space separators, line/paragraph separators and BOM. -/
def jsWs (c : Char) : Bool :=
  let n := c.toNat
  n == 9 || n == 10 || n == 11 || n == 12 || n == 13 || n == 32 ||
  n == 160 || n == 0x1680 || (0x2000 ≤ n && n ≤ 0x200a) ||
  n == 0x2028 || n == 0x2029 || n == 0x202f || n == 0x205f ||
  n == 0x3000 || n == 0xfeff

/-- Remove trailing JS whitespace from a character list. -/
def trimEndL (cs : List Char) : List Char :=
  (cs.reverse.dropWhile jsWs).reverse

/-- Remove leading and trailing JS whitespace (JS `String.prototype.trim`). -/
def trimL (cs : List Char) : List Char :=
  trimEndL (cs.dropWhile jsWs)

/-- JS `String.prototype.trim` on `String`. -/
def jsTrim (s : String) : String := ⟨trimL s.data⟩

/-- JS `String.prototype.trimEnd` on `String`. -/
def jsTrimEnd (s : String) : String := ⟨trimEndL s.data⟩

/-- Split a character list at every `'\n'` (JS `text.split("\n")`). -/
def splitNl : List Char → List (List Char)
  | [] => [[]]
  | c :: rest =>
    if c = '\n' then [] :: splitNl rest
    else
      match splitNl rest with
      | [] => [[c]]
      | l :: ls => (c :: l) :: ls

/-- JS `text.split("\n")` on `String`. -/
def jsLines (s : String) : List String :=
  (splitNl s.data).map (fun l => String.mk l)

/-- ASCII lower-casing of one character, as JS `toLowerCase` acts on the
ASCII range (the full Unicode simple case folding coincides with this on
ASCII and on CJK text, which is all the repository handles). -/
def jsLower (c : Char) : Char := c.toLower

/-- JS `String.prototype.toLowerCase` (ASCII/CJK fragment). -/
def jsLowerStr (s : String) : String := ⟨s.data.map jsLower⟩

/-- Case-insensitive comparison of a pattern character against an input
character, as a regex with the `i` flag matches a literal: letters compare
after case folding, every other character compares exactly. -/
def ciChar (p c : Char) : Bool :=
  p == c || (p.isAlpha && c.isAlpha && p.toLower == c.toLower)

/-- Does the input start with the pattern, case-insensitively? -/
def ciPre : List Char → List Char → Bool
  | [], _ => true
  | _ :: _, [] => false
  | p :: ps, c :: cs => ciChar p c && ciPre ps cs

/-- Scanner for `replaceCIL`: `skip` counts characters still to consume
silently from a replaced occurrence; at `skip = 0` the next occurrence is
looked for. -/
def replaceCIGo (pat rep : List Char) : Nat → List Char → List Char
  | _, [] => []
  | n + 1, _ :: cs => replaceCIGo pat rep n cs
  | 0, c :: cs =>
    if ciPre pat (c :: cs) then rep ++ replaceCIGo pat rep (pat.length - 1) cs
    else c :: replaceCIGo pat rep 0 cs

/-- JS `input.replace(/pat/gi, rep)` for a literal pattern `pat`: scan left
to right, replace each non-overlapping case-insensitive occurrence,
continuing after the replaced stretch. -/
def replaceCIL (pat rep : List Char) (cs : List Char) : List Char :=
  replaceCIGo pat rep 0 cs

/-- ASCII decimal digit. -/
def isDigitCh (c : Char) : Bool := 48 ≤ c.toNat && c.toNat ≤ 57

/-- ASCII hexadecimal digit (`[0-9a-fA-F]`). -/
def isHexCh (c : Char) : Bool :=
  isDigitCh c || (97 ≤ c.toNat && c.toNat ≤ 102) || (65 ≤ c.toNat && c.toNat ≤ 70)

/-- Numeric value of a hexadecimal digit. -/
def hexVal (c : Char) : Nat :=
  if isDigitCh c then c.toNat - 48
  else if 97 ≤ c.toNat then c.toNat - 87
  else c.toNat - 55

/-- Value of a digit run in the given base. -/
def digitsVal (base : Nat) (v : Char → Nat) (ds : List Char) : Nat :=
  ds.foldl (fun acc d => acc * base + v d) 0

/-- JS `String.fromCharCode`: the code is reduced modulo 2^16; a resulting
lone surrogate (not a Unicode scalar value) is modelled as NUL, which
`Char.ofNat` yields for invalid codes. -/
def jsFromCharCode (n : Nat) : Char := Char.ofNat (n % 65536)

/-- Parse the tail `#x<hex>+;` of a hexadecimal character reference, right
after its `&`; returns the code and the number of characters consumed. -/
def hexEntTail (cs : List Char) : Option (Nat × Nat) :=
  match cs with
  | '#' :: 'x' :: rest =>
    let ds := rest.takeWhile isHexCh
    match ds, rest.drop ds.length with
    | [], _ => none
    | _ :: _, ';' :: _ => some (digitsVal 16 hexVal ds, 2 + ds.length + 1)
    | _ :: _, _ => none
  | _ => none

/-- Parse the tail `#<dec>+;` of a decimal character reference. -/
def decEntTail (cs : List Char) : Option (Nat × Nat) :=
  match cs with
  | '#' :: rest =>
    let ds := rest.takeWhile isDigitCh
    match ds, rest.drop ds.length with
    | [], _ => none
    | _ :: _, ';' :: _ => some (digitsVal 10 (fun c => c.toNat - 48) ds, 1 + ds.length + 1)
    | _ :: _, _ => none
  | _ => none

/-- Scanner for the numeric character-reference passes, parameterised by the
tail parser (`hexEntTail` or `decEntTail`); `skip` counts the characters of a
recognised reference still to consume silently. -/
def replaceEntGo (tail : List Char → Option (Nat × Nat)) : Nat → List Char → List Char
  | _, [] => []
  | n + 1, _ :: cs => replaceEntGo tail n cs
  | 0, c :: cs =>
    if c = '&' then
      match tail cs with
      | some (code, k) => jsFromCharCode code :: replaceEntGo tail k cs
      | none => '&' :: replaceEntGo tail 0 cs
    else c :: replaceEntGo tail 0 cs

/-- JS `text.replace(/&#x([0-9a-fA-F]+);/g, fromCharCode)`. -/
def replaceHexEnt (cs : List Char) : List Char := replaceEntGo hexEntTail 0 cs

/-- JS `text.replace(/&#(\d+);/g, fromCharCode)`. -/
def replaceDecEnt (cs : List Char) : List Char := replaceEntGo decEntTail 0 cs

/-- `decodeEntities` from the extraction module: the eight `replace` passes
in source order (named entities case-insensitively, then `&#39;`, then
hexadecimal and decimal numeric references). -/
def decodeEntitiesL (cs : List Char) : List Char :=
  replaceDecEnt (replaceHexEnt
    (replaceCIL "&#39;".data "'".data
      (replaceCIL "&quot;".data "\"".data
        (replaceCIL "&amp;".data "&".data
          (replaceCIL "&gt;".data ">".data
            (replaceCIL "&lt;".data "<".data
              (replaceCIL "&nbsp;".data " ".data cs)))))))

/-- JS `text.replace(/\r\n/g, "\n")`. -/
def replaceCRLF : List Char → List Char
  | '\r' :: '\n' :: rest => '\n' :: replaceCRLF rest
  | c :: rest => c :: replaceCRLF rest
  | [] => []

/-- JS `text.replace(/\r/g, "\n")`, character by character. -/
def crToNl (c : Char) : Char := if c = '\r' then '\n' else c

/-- JS NBSP-to-space replacement (the last `replace` of `normalizeText`), character by character. -/
def nbspToSp (c : Char) : Char := if c.toNat = 0xa0 then ' ' else c

/-- The Text Normalizer `normalizeText`: decode entities, collapse `\r\n`,
turn remaining `\r` into `\n`, replace NBSP by space. -/
def normalizeTextL (cs : List Char) : List Char :=
  ((replaceCRLF (decodeEntitiesL cs)).map crToNl).map nbspToSp

/-- `normalizeText` on `String`. -/
def normalizeText (s : String) : String := ⟨normalizeTextL s.data⟩

example : normalizeText "a&amp;b&lt;c" = "a&b<c" := by decide
example : normalizeText "x&#65;&#x42;" = "xAB" := by decide
example : normalizeText "a\r\nb\rc d" = "a\nb\nc d" := by decide

/-- Scanner for `collapseWs`: the flag records whether the previous
character was whitespace (so that a run is replaced only once). -/
def collapseWsGo (rep : Char) : Bool → List Char → List Char
  | _, [] => []
  | inRun, c :: cs =>
    if jsWs c then
      if inRun then collapseWsGo rep true cs
      else rep :: collapseWsGo rep true cs
    else c :: collapseWsGo rep false cs

/-- JS `s.replace(/\s+/g, r)` for a one-character replacement `r`: every
maximal whitespace run becomes a single `r`. -/
def collapseWs (rep : Char) (cs : List Char) : List Char :=
  collapseWsGo rep false cs

/-- JS `s.replace(/\s+/g, "")`: remove all whitespace. -/
def stripWsL (cs : List Char) : List Char := cs.filter (fun c => !jsWs c)

/-- JS `line.replace(/\s+/g, " ").trim()`, used on credit lines. -/
def normSpaces (s : String) : String := ⟨trimL (collapseWs ' ' s.data)⟩

/-- JS `value.split(/[class]+/)`: split at every maximal run of separator
characters, keeping the (possibly empty) boundary segments exactly as the
JavaScript engine does. -/
def splitRuns (isSep : Char → Bool) : List Char → List (List Char)
  | [] => [[]]
  | c :: rest =>
    if isSep c then
      match rest with
      | d :: _ =>
        if isSep d then splitRuns isSep rest
        else [] :: splitRuns isSep rest
      | [] => [] :: splitRuns isSep rest
    else
      match splitRuns isSep rest with
      | [] => [[c]]
      | l :: ls => (c :: l) :: ls

/-- Substring test (JS `String.prototype.includes`). -/
def containsSeq (needle : List Char) : List Char → Bool
  | [] => needle.isEmpty
  | c :: rest => needle.isPrefixOf (c :: rest) || containsSeq needle rest

/-- Deduplication keeping first occurrences, with an accumulator of values
already seen (JS `Array.from(new Set(xs))`). -/
def dedupGo [BEq α] (seen : List α) : List α → List α
  | [] => []
  | x :: xs => if seen.contains x then dedupGo seen xs else x :: dedupGo (x :: seen) xs

/-- JS `Array.from(new Set(xs))`: first occurrences in order. -/
def dedupFirst [BEq α] (l : List α) : List α := dedupGo [] l

/-- JS `Map.get(k) ?? 0` over an insertion-ordered association list. -/
def mapGet (m : List (String × Nat)) (k : String) : Nat :=
  match m.find? (fun p => p.1 == k) with
  | some p => p.2
  | none => 0

/-- JS `Map.set(k, v)`: overwrite in place if the key exists (keeping its
insertion position), otherwise append. -/
def mapSet : List (String × Nat) → String → Nat → List (String × Nat)
  | [], k, v => [(k, v)]
  | (k0, v0) :: rest, k, v =>
    if k0 == k then (k, v) :: rest else (k0, v0) :: mapSet rest k v

/-!  ## Record Validator & Canonicalizer (the schema module)  -/

/-- JS `Number.parseInt(s, 10)`: skip leading whitespace, optional sign,
then the longest ASCII digit run; `none` models `NaN`.  (Digit strings
beyond 2^53 lose precision in JavaScript; the model is exact and no claim
exercises that range.) -/
def jsParseInt (s : String) : Option Int :=
  let t := s.data.dropWhile jsWs
  let signAndRest : Int × List Char :=
    match t with
    | '+' :: r => (1, r)
    | '-' :: r => (-1, r)
    | r => (1, r)
  let ds := signAndRest.2.takeWhile isDigitCh
  if ds.isEmpty then none
  else some (signAndRest.1 * (digitsVal 10 (fun c => c.toNat - 48) ds : Nat))

/-- Decimal digit character. -/
def decDigitCh (d : Nat) : Char := Char.ofNat (48 + d)

/-- The fractional decimal digits of `r / d` (with `0 ≤ r < d`), produced
while the remainder is non-zero; the fuel only bounds the digit count
(finite doubles print at most 17 significant digits, so 30 is ample) and
keeps the recursion structural. -/
def decFracDigits : Nat → Nat → Nat → List Char
  | 0, _, _ => []
  | _ + 1, 0, _ => []
  | fuel + 1, r, d => decDigitCh (r * 10 / d) :: decFracDigits fuel (r * 10 % d) d

/-- JS `String(value)` for a finite number, modelled on exact rationals:
sign, integer part, and the finite decimal expansion of the fractional
part.  This agrees with JavaScript on every value whose shortest
round-trip rendering is its exact decimal expansion without exponent
notation (all year-like inputs); IEEE-754 rounding and exponent formatting
are outside the model. -/
def jsNumToString (q : ℚ) : String :=
  let n := q.num.natAbs
  let ip := toString (n / q.den)
  let frac := decFracDigits 30 (n % q.den) q.den
  let body := if frac.isEmpty then ip else ip ++ "." ++ String.mk frac
  if q.num < 0 then "-" ++ body else body

/-- `normalizeYear` from the schema module.  The year input is a JSON
string or number; numbers are modelled as exact rationals.  `z.number()`
rejects `NaN` and the remaining non-finite values are unreachable from
JSON (and outside the rational model), so `Number.isFinite(value)` holds
for a numeric input and it is passed straight through — including
non-integral years. -/
def normalizeYear : Option (String ⊕ ℚ) → Option ℚ × String
  | none => (none, "未知")
  | some (Sum.inl s) =>
    if s = "" then (none, "未知")
    else
      match jsParseInt s with
      | some n => (some (n : ℚ), toString n)
      | none => (none, s)
  | some (Sum.inr q) => (some q, jsNumToString q)

/-- The separator class `/[、,，;/|]+/` (`nonWordSplit`) shared by the
schema module and the extraction engine's artist splitting. -/
def nonWordSep (c : Char) : Bool :=
  c == '、' || c == ',' || c == '，' || c == ';' || c == '/' || c == '|'

/-- Split on the separator class, trim each piece, drop empties — the
pipeline shared by `normalizeLyricists` and `splitArtists`. -/
def splitTrimFilter (s : String) : List String :=
  (((splitRuns nonWordSep s.data).map (fun l => String.mk (trimL l))).filter
    (fun x => x != ""))

/-- `normalizeLyricists` from the schema module: absent or empty input gives
`[]`; an array is joined with spaces first; then split/trim/filter. -/
def normalizeLyricists : Option (String ⊕ List String) → List String
  | none => []
  | some (Sum.inl s) => if s = "" then [] else splitTrimFilter s
  | some (Sum.inr arr) => splitTrimFilter (String.intercalate " " arr)

/-- UTF-16 code units of one scalar value (JS `charCodeAt` iterates these). -/
def utf16Units (c : Char) : List Nat :=
  if c.toNat < 65536 then [c.toNat]
  else [0xd800 + (c.toNat - 65536) / 1024, 0xdc00 + (c.toNat - 65536) % 1024]

/-- One step of the schema module's `hashString` loop:
`hash = (hash * 31 + code) >>> 0`. -/
def hashStep (h u : Nat) : Nat := (h * 31 + u) % 4294967296

/-- The 32-bit accumulator of the schema module's `hashString`. -/
def hashStringNat (cs : List Char) : Nat :=
  cs.foldl (fun h c => (utf16Units c).foldl hashStep h) 0

/-- Base-36 digit (JS `Number.prototype.toString(36)` alphabet `0-9a-z`). -/
def digit36 (d : Nat) : Char :=
  if d < 10 then Char.ofNat (48 + d) else Char.ofNat (87 + d)

/-- Digit expansion for `toString(36)`; the fuel only bounds the number of
digits (32 is ample for 32-bit values) and keeps the recursion structural. -/
def toBase36Go : Nat → Nat → List Char → List Char
  | 0, n, acc => digit36 n :: acc
  | fuel + 1, n, acc =>
    if n < 36 then digit36 n :: acc
    else toBase36Go fuel (n / 36) (digit36 (n % 36) :: acc)

/-- JS `n.toString(36)` for a non-negative integer. -/
def toBase36 (n : Nat) : List Char := toBase36Go 32 n []

/-- `hashString` from the schema module: the 32-bit rolling hash rendered
in base 36. -/
def hashString (s : String) : String := ⟨toBase36 (hashStringNat s.data)⟩

/-- The pre-hash `base` of `makeId`:
```${artist}-${title}-${album}-${yearText}`.replace(/\s+/g, "-")``. -/
def makeIdBase (artist title album yearText : String) : List Char :=
  collapseWs '-'
    (artist.data ++ '-' :: (title.data ++ '-' :: (album.data ++ '-' :: yearText.data)))

/-- `makeId` from the schema module: the base joined with its own hash. -/
def makeId (artist title album yearText : String) : String :=
  ⟨makeIdBase artist title album yearText ++
    '-' :: toBase36 (hashStringNat (makeIdBase artist title album yearText))⟩

/-- A raw track entry as it looks after `zod` parsing of the RawPackage
shape (`TrackInputSchema`): unions are modelled by `Sum`, absent optionals
by `none`. -/
structure RawTrack where
  id : Option String
  title : String
  album : Option String
  year : Option (String ⊕ ℚ)
  lyricists : Option (String ⊕ List String)
  lyrics : String
deriving DecidableEq

/-- The RawPackage shape (`LyricsPackageSchema`). -/
structure RawPackage where
  schema_version : String ⊕ Int
  artist : String
  tracks : List RawTrack
deriving DecidableEq

/-- The persisted canonical record (`TrackRecord`). -/
structure TrackRecord where
  id : String
  title : String
  album : String
  year : Option ℚ
  yearText : String
  lyricists : List String
  lyrics : String
  artist : String
deriving DecidableEq

/-- `NormalizedPackage`. -/
structure NormalizedPackage where
  schemaVersion : String
  artist : String
  tracks : List TrackRecord
deriving DecidableEq

/-- The validator's failure (`ZodError`). -/
inductive SchemaViolation
  | zodError
deriving DecidableEq

/-- The `zod` constraints of `LyricsPackageSchema` that go beyond the
structural typing already enforced by `RawPackage`: non-empty artist,
non-empty tracks array, and per track non-empty title and lyrics. -/
def packageOk (p : RawPackage) : Bool :=
  (1 ≤ p.artist.length) && (1 ≤ p.tracks.length) &&
    p.tracks.all (fun t => (1 ≤ t.title.length) && (1 ≤ t.lyrics.length))

/-- JS `String(parsed.schema_version)`. -/
def versionText : String ⊕ Int → String
  | Sum.inl s => s
  | Sum.inr n => toString n

/-- The per-track body of `normalizeLyricsPackage`'s `map`. -/
def normTrack (artist : String) (t : RawTrack) : TrackRecord :=
  let title := jsTrim t.title
  let album :=
    match t.album with
    | some a => if a = "" then "未归档" else jsTrim a
    | none => "未归档"
  let yr := normalizeYear t.year
  let lyricists := normalizeLyricists t.lyricists
  let lyrics := jsTrim t.lyrics
  { id :=
      match t.id with
      | some i => i
      | none => makeId artist title album yr.2,
    title := title, album := album, year := yr.1, yearText := yr.2,
    lyricists := if lyricists.isEmpty then ["佚名"] else lyricists,
    lyrics := lyrics, artist := artist }

/-- `normalizeLyricsPackage`: `zod` validation (modelled as the boolean
`packageOk`, failing with the `ZodError` marker) followed by
canonicalization of every track. -/
def normalizeLyricsPackage (input : RawPackage) : Except SchemaViolation NormalizedPackage :=
  if packageOk input then
    Except.ok
      { schemaVersion := versionText input.schema_version,
        artist := jsTrim input.artist,
        tracks := input.tracks.map (normTrack (jsTrim input.artist)) }
  else Except.error SchemaViolation.zodError

example : jsParseInt "  2024年" = some 2024 := by decide
example : jsParseInt "abc" = none := by decide
example : jsParseInt "-12x" = some (-12) := by decide
example : makeId "a" "b" "c" "d" = "a-b-c-d-py02zn" := by decide
example : splitTrimFilter " 张三 ，, 李四 " = ["张三", "李四"] := by decide

/-!  ## Lexical Statistics Engine (the stats module)  -/

/-- The fixed multi-character stop-word set, exactly as listed in the
source (duplicated entries included; `Set` semantics collapse them). -/
def stopWords : List String :=
  ["我们", "你们", "他们", "她们", "它们", "自己", "一个", "没有", "然后", "因为",
   "所以", "但是", "如果", "只是", "就是", "还是", "已经", "现在", "过去", "未来",
   "这样", "那样", "这里", "那里", "什么", "怎么", "可以", "不会", "是否", "可能",
   "不要", "不要", "真的", "真的"]

/-- The fixed stop-character set, exactly as listed in the source. -/
def stopChars : List Char :=
  ['的', '了', '在', '是', '我', '你', '他', '她', '它', '也', '和', '与', '或',
   '而', '啊', '哦', '吗', '呢', '吧', '呀', '这', '那', '就', '都', '被', '让',
   '为', '有', '无', '不', '没', '可', '很', '再', '又', '并', '但', '却', '且',
   '也', '与', '其', '之', '乎', '者', '矣', '焉', '哉', '于', '以', '所', '乃',
   '则', '非', '皆', '、', '。', '，', '！', '？', '；', '：', '“', '”', '《',
   '》', '（', '）', '【', '】', '—', '-', '_', ' ', '\n', '\t']

/-- The CJK ideograph test `/[一-龥]/` on one character. -/
def isCjkCh (c : Char) : Bool := 0x4e00 ≤ c.toNat && c.toNat ≤ 0x9fa5

/-- `isValidChar` from the stats module (named `isValidCh` here because core
Lean already has an `isValidChar`): not a stop character, and a CJK
ideograph. -/
def isValidCh (c : Char) : Bool := !(stopChars.contains c) && isCjkCh c

/-- The punctuation class of `isPunctuation`. -/
def punctChars : List Char := "。，！？；：、“”《》【】（）—…-_".data

/-- `isPunctuation`: does any character of the value match the class? -/
def isPunctuation (s : String) : Bool := s.data.any (fun c => punctChars.contains c)

/-- `hasCjk`: does the value contain a CJK ideograph? -/
def hasCjk (s : String) : Bool := s.data.any isCjkCh

/-- The per-segment filter of `segmentWords`, in source order: trim, drop
empties, drop punctuation, require CJK, minimum length (unless
`includeSingle`), drop stop words, drop single stop characters. -/
def segKeep (includeSingle : Bool) (seg0 : String) : Option String :=
  let token := jsTrim seg0
  if token = "" then none
  else if isPunctuation token then none
  else if !(hasCjk token) then none
  else if !includeSingle && token.length < 2 then none
  else if stopWords.contains token then none
  else if token.length == 1 && stopChars.contains (token.data.headD ' ') then none
  else some token

/-- `segmentWords`: the locale-aware `Intl.Segmenter` is an external
platform capability, so the segmenter's raw output for the given text is an
input of the model (`segs`); an unavailable segmenter is `segs = []`, which
makes the function return `[]` exactly as the source does.  The source-side
filtering of the segments is embedded faithfully. -/
def segmentWords (segs : List String) (includeSingle : Bool) : List String :=
  segs.filterMap (segKeep includeSingle)

/-- The character-bigram fallback loop of `buildBigramStats`: every adjacent
pair of valid characters, in order. -/
def bigramsL : List Char → List String
  | c1 :: c2 :: rest =>
    (if isValidCh c1 && isValidCh c2 then [String.mk [c1, c2]] else []) ++
      bigramsL (c2 :: rest)
  | _ => []

/-- A token with its occurrence count. -/
structure BigramToken where
  token : String
  count : Nat
deriving DecidableEq

/-- The deduplicated (first occurrences, in order) non-blank trimmed lines
of a track's lyrics. -/
def uniqueLinesOf (lyrics : String) : List String :=
  dedupFirst (((splitNl lyrics.data).map (fun l => String.mk (trimL l))).filter
    (fun s => s != ""))

/-- `uniqueLines.join("\n")`. -/
def uniqueTextOf (lyrics : String) : String :=
  String.intercalate "\n" (uniqueLinesOf lyrics)

/-- The tokens one track contributes: word segmentation when it yields
anything, otherwise character bigrams over the whitespace-stripped text. -/
def trackTokens (seg : String → List String) (includeSingle : Bool)
    (tr : TrackRecord) : List String :=
  let uniqueText := uniqueTextOf tr.lyrics
  let tokens := segmentWords (seg uniqueText) includeSingle
  if tokens.isEmpty then bigramsL (stripWsL uniqueText.data) else tokens

/-- `counts.set(token, (counts.get(token) ?? 0) + 1)`. -/
def bumpCount (m : List (String × Nat)) (k : String) : List (String × Nat) :=
  mapSet m k (mapGet m k + 1)

/-- The insertion-ordered count map accumulated over all tracks. -/
def countsOf (seg : String → List String) (includeSingle : Bool)
    (tracks : List TrackRecord) : List (String × Nat) :=
  tracks.foldl (fun m tr => (trackTokens seg includeSingle tr).foldl bumpCount m) []

/-- Stable descending insertion by count: an element is placed before every
element of not-larger count it is compared with, so earlier elements stay
first among equals — the ECMAScript stable-sort semantics of
`sort((a, b) => b.count - a.count)`. -/
def insertDesc (x : BigramToken) : List BigramToken → List BigramToken
  | [] => [x]
  | y :: ys => if y.count ≤ x.count then x :: y :: ys else y :: insertDesc x ys

/-- Stable descending sort by count. -/
def sortDesc : List BigramToken → List BigramToken
  | [] => []
  | x :: xs => insertDesc x (sortDesc xs)

/-- `buildBigramStats`: accumulate counts, sort descending by count
(stable), truncate to the limit.  `seg` abstracts the external
`Intl.Segmenter` (see `segmentWords`); `limit` and `includeSingle` are the
source's `limit` and `options.includeSingle` parameters. -/
def buildBigramStats (seg : String → List String) (tracks : List TrackRecord)
    (limit : Nat) (includeSingle : Bool) : List BigramToken :=
  (sortDesc ((countsOf seg includeSingle tracks).map
    (fun p => { token := p.1, count := p.2 }))).take limit

/-!  ## Snippet Locator (`extractFocusedSnippets`)  -/

/-- One snippet result: the trimmed matching line and its track's title. -/
structure Snip where
  line : String
  title : String
deriving DecidableEq

/-- The mutable state of the snippet scan: the `seen` set, the results in
order, and the per-track-id contribution counts. -/
structure SnipState where
  seen : List String
  results : List Snip
  perTrack : List (String × Nat)
deriving DecidableEq

/-- The inner line loop of `extractFocusedSnippets` for one track;
`Sum.inr` is the early `return results` once the limit is reached. -/
def snipLines (limit : Nat) (needle : String) (tid ttl : String) :
    List String → SnipState → SnipState ⊕ SnipState
  | [], st => Sum.inl st
  | l :: ls, st =>
    if limit ≤ st.results.length then Sum.inr st
    else
      let normalized := jsTrim l
      if normalized = "" then snipLines limit needle tid ttl ls st
      else if !(containsSeq needle.data (jsLowerStr normalized).data) then
        snipLines limit needle tid ttl ls st
      else if st.seen.contains normalized then snipLines limit needle tid ttl ls st
      else if 2 ≤ mapGet st.perTrack tid then snipLines limit needle tid ttl ls st
      else
        snipLines limit needle tid ttl ls
          { seen := normalized :: st.seen,
            results := st.results ++ [{ line := normalized, title := ttl }],
            perTrack := mapSet st.perTrack tid (mapGet st.perTrack tid + 1) }

/-- The outer track loop; an early return from the inner loop ends the
whole scan. -/
def snipTracks (limit : Nat) (needle : String) :
    List TrackRecord → SnipState → SnipState
  | [], st => st
  | t :: ts, st =>
    match snipLines limit needle t.id t.title (jsLines t.lyrics) st with
    | Sum.inl st1 => snipTracks limit needle ts st1
    | Sum.inr st1 => st1

/-- The empty scan state. -/
def initSnipState : SnipState := { seen := [], results := [], perTrack := [] }

/-- `extractFocusedSnippets`: empty trimmed term short-circuits to `[]`,
otherwise the two-level scan runs with the lower-cased trimmed term. -/
def extractFocusedSnippets (tracks : List TrackRecord) (term : String)
    (limit : Nat) : List Snip :=
  let trimmed := jsLowerStr (jsTrim term)
  if trimmed = "" then []
  else (snipTracks limit trimmed tracks initSnipState).results

/-!  ## Track Extraction Engine (the packgen module)

The line-pattern regexes are embedded as explicit scanners.  Where the
source only consumes a capture group after `.trim()`, the model returns the
raw matched stretch and trims at the use site; for the lazy groups
`(.+?)` this is sound because backtracking only moves whitespace between
the group and its whitespace-matching neighbours `\s*`, which the trim
removes either way.  The `console.log` debug calls (including the
`countTitles` accumulator feeding only a log) have no observable effect on
the returned package and are omitted. -/

/-- Split at the first character satisfying `p`: `some (before, after)`. -/
def breakAtFirst (p : Char → Bool) : List Char → Option (List Char × List Char)
  | [] => none
  | c :: cs =>
    if p c then some ([], cs)
    else
      match breakAtFirst p cs with
      | some (pre, post) => some (c :: pre, post)
      | none => none

/-- Year/artist tail of an album-line match: after the closing `》`, skip
whitespace, take `(\d{4})?` — exactly four digits — and return the raw
stretch after them (the artist group modulo its trim). -/
def albumTail (inner post : List Char) : List Char × Option (List Char) × List Char :=
  let t1 := post.dropWhile jsWs
  let year4 := t1.take 4
  if year4.length == 4 && year4.all isDigitCh then (inner, some year4, t1.drop 4)
  else (inner, none, t1)

/-- `albumLineRe = /^《\s*(.+?)\s*》\s*(\d{4})?\s*(.+)?$/`.  The greedy
`\s*` consumes the whitespace run of length `w` after `《` first, and the
lazy group then closes at the first `》` strictly after position `w`; only
when no such `》` exists does the engine backtrack one whitespace
character, which succeeds exactly when the first non-whitespace character
is itself `》` and `w ≥ 1` (the content group is then that single
whitespace character, which trims to nothing).  The result is the raw
content group, the year digits, and the raw post-year stretch (content and
artist are trimmed at the use sites, exactly as the source trims the
captures). -/
def matchAlbumLine (l : List Char) : Option (List Char × Option (List Char) × List Char) :=
  match l with
  | '《' :: rest =>
    let w := (rest.takeWhile jsWs).length
    match rest.drop w with
    | c0 :: afterC0 =>
      match breakAtFirst (fun c => c == '》') afterC0 with
      | some (pre, post) => some (albumTail (c0 :: pre) post)
      | none =>
        if c0 = '》' ∧ 1 ≤ w then some (albumTail (List.drop (w - 1) (rest.take w)) afterC0)
        else none
    | [] => none
  | _ => none

/-- The opening bracket class of `titleLineRe`. -/
def openBr : List Char := ['<', '＜', '〈', '《', '【', '「']

/-- The closing bracket class of `titleLineRe`. -/
def closeBr : List Char := ['>', '＞', '〉', '》', '】', '」']

/-- `titleLineRe = /^([<＜〈《【「]\s*)(.+?)(\s*[>＞〉》】」])(?:(.*))$/`: an
opening bracket, then the same greedy-whitespace/lazy-content backtracking
as `matchAlbumLine` (close at the first closing bracket strictly after the
whitespace run; fall back to one whitespace character of content exactly
when the first non-whitespace character is itself a closing bracket and
the run is non-empty), and the raw remainder of the line. -/
def matchTitleLine (l : List Char) : Option (List Char × List Char) :=
  match l with
  | o :: rest =>
    if openBr.contains o then
      let w := (rest.takeWhile jsWs).length
      match rest.drop w with
      | c0 :: afterC0 =>
        match breakAtFirst (fun c => closeBr.contains c) afterC0 with
        | some (pre, post) => some (c0 :: pre, post)
        | none =>
          if closeBr.contains c0 ∧ 1 ≤ w then some (List.drop (w - 1) (rest.take w), afterC0)
          else none
      | [] => none
    else none
  | _ => none

/-- A colon as matched by `[:：]`. -/
def colonCh (c : Char) : Bool := c == ':' || c == '：'

/-- The character class `[一-龥A-Za-z0-9\s·・]` of `nakedTitleRe`. -/
def nakedTitleCh (c : Char) : Bool :=
  isCjkCh c || (65 ≤ c.toNat && c.toNat ≤ 90) || (97 ≤ c.toNat && c.toNat ≤ 122) ||
    isDigitCh c || jsWs c || c == '·' || c == '・'

/-- `looksLikeNakedTitle`: 2–12 characters after whitespace removal, no
colon, and `nakedTitleRe` (2–12 characters of the class) matches the whole
line. -/
def looksLikeNakedTitle (line : String) : Bool :=
  let compact := stripWsL line.data
  if compact.length < 2 || 12 < compact.length then false
  else if line.data.contains ':' || line.data.contains '：' then false
  else (2 ≤ line.length && line.length ≤ 12) && line.data.all nakedTitleCh

/-- The lookahead `(?=$|\s+作曲|　|&nbsp;)` of `lyricistRe`. -/
def lyrLookahead (cs : List Char) : Bool :=
  match cs with
  | [] => true
  | c :: _ =>
    (jsWs c && "作曲".data.isPrefixOf (cs.dropWhile jsWs)) || c == '　' ||
      "&nbsp;".data.isPrefixOf cs

/-- Lazy expansion of `([^作曲]+?)` under the lookahead: at least one
character already taken (`acc`, reversed); stop at the first position where
the lookahead holds; fail if forced onto `作` or `曲`. -/
def lyrContentGo (acc : List Char) : List Char → Option (List Char)
  | [] => some acc.reverse
  | c :: rest =>
    if lyrLookahead (c :: rest) then some acc.reverse
    else if c == '作' || c == '曲' then none
    else lyrContentGo (c :: acc) rest

/-- First character of the lazy group, then `lyrContentGo`. -/
def lyrContent : List Char → Option (List Char)
  | [] => none
  | c :: rest => if c == '作' || c == '曲' then none else lyrContentGo [c] rest

/-- Backtracking of the greedy `\s*` after the colon: try the maximal
whitespace run first, then shorter ones. -/
def lyrTryKs (cs : List Char) : Nat → Option (List Char)
  | 0 => lyrContent cs
  | k + 1 =>
    match lyrContent (cs.drop (k + 1)) with
    | some g => some g
    | none => lyrTryKs cs k

/-- `\s*([^作曲]+?)(?=...)` after the colon of `lyricistRe`. -/
def lyrAfterColon (cs : List Char) : Option (List Char) :=
  lyrTryKs cs (cs.takeWhile jsWs).length

/-- One anchored attempt of `lyricistRe` at the current position:
`(作词|作詞)[:：]` then `lyrAfterColon`. -/
def lyrAttempt (cs : List Char) : Option (List Char) :=
  match cs with
  | '作' :: w :: c :: rest =>
    if (w == '词' || w == '詞') && colonCh c then lyrAfterColon rest else none
  | _ => none

/-- `normalized.match(lyricistRe)?.[2]`: scan positions left to right. -/
def findLyricist : List Char → Option (List Char)
  | [] => none
  | c :: rest =>
    match lyrAttempt (c :: rest) with
    | some g => some g
    | none => findLyricist rest

/-- One anchored attempt of `composerRe = /(作曲)[:：]\s*(.+)$/`: after the
colon the greedy `\s*` backtracks just enough to leave `(.+)` one
character, so the group is the rest without its leading whitespace, or the
final character when everything left is whitespace. -/
def compAttempt (cs : List Char) : Option (List Char) :=
  match cs with
  | '作' :: '曲' :: c :: rest =>
    if colonCh c then
      match rest with
      | [] => none
      | _ =>
        let v := rest.dropWhile jsWs
        some (if v.isEmpty then [rest.getLastD ' '] else v)
    else none
  | _ => none

/-- `normalized.match(composerRe)?.[2]`: scan positions left to right. -/
def findComposer : List Char → Option (List Char)
  | [] => none
  | c :: rest =>
    match compAttempt (c :: rest) with
    | some g => some g
    | none => findComposer rest

/-- `splitArtists` from the packgen module: the same separator class,
trim, and empty-filter pipeline as the schema module's lyricist split. -/
def splitArtists (value : String) : List String := splitTrimFilter value

/-- The in-progress track accumulator. -/
structure Draft where
  title : String
  lyricists : List String
  composers : List String
  lines : List String
deriving DecidableEq

/-- A raw track entry emitted by the extraction engine. -/
structure PackageTrack where
  title : String
  album : String
  year : Option String
  lyricists : Option (List String)
  lyrics : String
deriving DecidableEq

/-- The extraction engine's result package (`schema_version` is literally
`1`). -/
structure PackageResult where
  schema_version : Nat
  artist : String
  tracks : List PackageTrack
deriving DecidableEq

/-- `applyCreditsFromLine`: collapse whitespace and trim, extract the
lyricist and composer groups, push the split name lists; `true` iff either
matched. -/
def applyCreditsFromLine (line : String) (d : Draft) : Bool × Draft :=
  let normalized := normSpaces line
  let lyr := findLyricist normalized.data
  let d1 :=
    match lyr with
    | some g => { d with lyricists := d.lyricists ++ splitArtists (String.mk g) }
    | none => d
  let comp := findComposer normalized.data
  let d2 :=
    match comp with
    | some g => { d1 with composers := d1.composers ++ splitArtists (String.mk g) }
    | none => d1
  (lyr.isSome || comp.isSome, d2)

/-- `isCreditOnlyLine`: `/^(作词|作詞|作曲)\s*[:：]/` on the
whitespace-normalized line. -/
def isCreditOnlyLine (line : String) : Bool :=
  match (normSpaces line).data with
  | '作' :: w :: rest =>
    (w == '词' || w == '詞' || w == '曲') &&
      (match rest.dropWhile jsWs with
       | c :: _ => colonCh c
       | [] => false)
  | _ => false

/-- The extraction engine's mutable state: the shared album/year/artist
context, the emitted tracks, the current draft, and the blank-previous
flag. -/
structure ParseState where
  artist : String
  album : String
  year : Option String
  tracks : List PackageTrack
  draft : Option Draft
  prevWasEmpty : Bool
deriving DecidableEq

/-- `flushDraft`: discard a draft without title or without a non-blank
lyric line, otherwise emit a raw track under the current album/year
context. -/
def flushDraft (st : ParseState) : ParseState :=
  match st.draft with
  | none => st
  | some d =>
    if d.title == "" || !(d.lines.any (fun l => jsTrim l != "")) then
      { st with draft := none }
    else
      { st with
        tracks := st.tracks ++
          [{ title := d.title, album := st.album, year := st.year,
             lyricists := if d.lyricists.isEmpty then none else some d.lyricists,
             lyrics := jsTrimEnd (String.intercalate "\n" d.lines) }],
        draft := none }

/-- `startDraft`. -/
def startDraft (title : String) : Draft :=
  { title := title, lyricists := [], composers := [], lines := [] }

/-- The album-context update shared by both loops: empty trimmed album
keeps the old one, a present year overwrites, a non-empty trimmed trailing
stretch overwrites the artist. -/
def applyAlbumCtx (st : ParseState) (inner : List Char) (year4 : Option (List Char))
    (tailAfter : List Char) : ParseState :=
  let albumT := String.mk (trimL inner)
  let artistT := String.mk (trimL tailAfter)
  { st with
    album := if albumT == "" then st.album else albumT,
    year := match year4 with
      | some y => some (String.mk y)
      | none => st.year,
    artist := if artistT == "" then st.artist else artistT }

/-- One iteration of the extraction engine's main line loop. -/
def stepLine (st : ParseState) (line : String) : ParseState :=
  if line == "" then
    { st with
      draft := st.draft.map (fun d => { d with lines := d.lines ++ [""] }),
      prevWasEmpty := true }
  else
    match matchAlbumLine line.data with
    | some (inner, y4, tl) =>
      { applyAlbumCtx st inner y4 tl with prevWasEmpty := false }
    | none =>
      match matchTitleLine line.data with
      | some (inner, g4) =>
        let st1 := flushDraft st
        let d0 := startDraft (String.mk (trimL inner))
        let g4t := trimL g4
        let d1 := if g4t.isEmpty then d0 else (applyCreditsFromLine (String.mk g4t) d0).2
        { st1 with draft := some d1, prevWasEmpty := false }
      | none =>
        if st.prevWasEmpty && looksLikeNakedTitle line then
          let st1 := flushDraft st
          { st1 with draft := some (startDraft (jsTrim line)), prevWasEmpty := false }
        else
          match st.draft with
          | none => { st with prevWasEmpty := false }
          | some d =>
            let ad := applyCreditsFromLine line d
            if ad.1 && isCreditOnlyLine line then
              { st with draft := some ad.2, prevWasEmpty := false }
            else
              { st with
                draft := some { ad.2 with lines := ad.2.lines ++ [line] },
                prevWasEmpty := false }

/-- The engine's first loop: the first non-blank line, if it is an
album-context line, seeds the shared album/year/artist context. -/
def firstCtx (st : ParseState) : List String → ParseState
  | [] => st
  | l :: ls =>
    if jsTrim l == "" then firstCtx st ls
    else
      match matchAlbumLine (jsTrim l).data with
      | some (inner, y4, tl) => applyAlbumCtx st inner y4 tl
      | none => st

/-- `parseTextToPackage`: normalize, split into trimmed lines, seed the
context from the first non-blank line, run the line automaton, flush the
final draft. -/
def parseTextToPackage (text : String) (defaultArtist : Option String) : PackageResult :=
  let raw := normalizeText text
  let lines := (splitNl raw.data).map (fun l => String.mk (trimL l))
  let artist0 :=
    match defaultArtist with
    | some s => if jsTrim s == "" then "未知艺人" else jsTrim s
    | none => "未知艺人"
  let st0 : ParseState :=
    { artist := artist0, album := "未归档", year := none, tracks := [],
      draft := none, prevWasEmpty := true }
  let st1 := firstCtx st0 lines
  let st2 := lines.foldl stepLine st1
  let st3 := flushDraft st2
  { schema_version := 1, artist := st3.artist, tracks := st3.tracks }

example :
    matchAlbumLine "《回声档案》2024 演示艺人".data =
      some ("回声档案".data, some "2024".data, " 演示艺人".data) := by decide
example : looksLikeNakedTitle "雾灯之外" = true := by decide
example : looksLikeNakedTitle "第二行歌词" = true := by decide
example : findLyricist (normSpaces "作词：张三 作曲：李四").data = some "张三".data := by
  decide
example :
    findLyricist (normSpaces "作词：示例词作者 作曲：示例作曲者").data = none := by
  decide
example :
    findComposer (normSpaces "作词：示例词作者 作曲：示例作曲者").data =
      some "示例作曲者".data := by decide

/-!  ## Claim C1: the canonical six-line fixture  -/

/-- The six-line canonical fixture of the specification. -/
def canonicalFixture : String :=
  "《回声档案》2024 演示艺人\n雾灯之外\n作词：示例词作者 作曲：示例作曲者\n第一行歌词\n\n第二行歌词"

/-- The final automaton state of `parseTextToPackage` (exposed so that the
internal album/year context, observable only through emitted tracks, can be
stated). -/
def parseStateOf (text : String) (defaultArtist : Option String) : ParseState :=
  let raw := normalizeText text
  let lines := (splitNl raw.data).map (fun l => String.mk (trimL l))
  let artist0 :=
    match defaultArtist with
    | some s => if jsTrim s == "" then "未知艺人" else jsTrim s
    | none => "未知艺人"
  let st0 : ParseState :=
    { artist := artist0, album := "未归档", year := none, tracks := [],
      draft := none, prevWasEmpty := true }
  flushDraft (lines.foldl stepLine (firstCtx st0 lines))

theorem parseStateOf_eq (text : String) (da : Option String) :
    parseTextToPackage text da =
      { schema_version := 1, artist := (parseStateOf text da).artist,
        tracks := (parseStateOf text da).tracks } := rfl

/-- C1 counterexample: on the canonical six-line fixture the Extraction
Engine emits no raw track at all (the album line clears the blank-previous
flag, so the bare title "雾灯之外" is not recognised), contradicting the
claimed single track. -/
theorem parseTextToPackage_fixture_refutes :
    (parseTextToPackage canonicalFixture none).tracks = [] := by decide

/-- C1 amended: on the canonical six-line fixture the engine returns
schema_version 1, package artist "演示艺人" and an empty track list, while
the internal album/year context does carry "回声档案" and "2024" (a bare
title is only recognised after a blank line, and the lyricist name
"示例词作者" could never be extracted anyway because `lyricistRe`'s content
class `[^作曲]+?` forbids the character 作 contained in it). -/
theorem parseTextToPackage_fixture_actual :
    parseTextToPackage canonicalFixture none =
      { schema_version := 1, artist := "演示艺人", tracks := [] } ∧
    (parseStateOf canonicalFixture none).album = "回声档案" ∧
    (parseStateOf canonicalFixture none).year = some "2024" := by
  refine ⟨by decide, by decide, by decide⟩

/-!  ## Claim C2: idempotence of the Text Normalizer  -/

/-- C2 counterexample: `normalizeText` is not idempotent.  Decoding
`&amp;lt;` yields the fresh entity `&lt;`, which a second pass decodes
further to `<`. -/
theorem normalizeText_not_idempotent :
    normalizeText (normalizeText "&amp;lt;") ≠ normalizeText "&amp;lt;" := by decide

theorem ciPre_amp_false {c : Char} (ps cs : List Char) (h : c ≠ '&') :
    ciPre ('&' :: ps) (c :: cs) = false := by
  have halpha : ('&' : Char).isAlpha = false := by decide
  simp [ciPre, ciChar, halpha, h, (Ne.symm h)]

theorem replaceCIGo_amp_id (ps rep : List Char) :
    ∀ cs : List Char, (∀ c ∈ cs, c ≠ '&') → replaceCIGo ('&' :: ps) rep 0 cs = cs := by
  intro cs
  induction cs with
  | nil => intro _; rfl
  | cons c cs ih =>
    intro h
    have hc : c ≠ '&' := h c (List.mem_cons_self c cs)
    have hpre := ciPre_amp_false ps cs hc
    simp only [replaceCIGo, hpre, Bool.false_eq_true, if_false]
    exact congrArg (c :: ·) (ih fun d hd => h d (List.mem_cons_of_mem c hd))

theorem replaceEntGo_amp_id (tailP : List Char → Option (Nat × Nat)) :
    ∀ cs : List Char, (∀ c ∈ cs, c ≠ '&') → replaceEntGo tailP 0 cs = cs := by
  intro cs
  induction cs with
  | nil => intro _; rfl
  | cons c cs ih =>
    intro h
    have hc : c ≠ '&' := h c (List.mem_cons_self c cs)
    simp only [replaceEntGo, hc, if_false]
    exact congrArg (c :: ·) (ih fun d hd => h d (List.mem_cons_of_mem c hd))

theorem decodeEntitiesL_amp_id (cs : List Char) (h : ∀ c ∈ cs, c ≠ '&') :
    decodeEntitiesL cs = cs := by
  unfold decodeEntitiesL replaceCIL replaceHexEnt replaceDecEnt
  rw [show "&nbsp;".data = '&' :: "nbsp;".data from rfl,
      show "&lt;".data = '&' :: "lt;".data from rfl,
      show "&gt;".data = '&' :: "gt;".data from rfl,
      show "&amp;".data = '&' :: "amp;".data from rfl,
      show "&quot;".data = '&' :: "quot;".data from rfl,
      show "&#39;".data = '&' :: "#39;".data from rfl]
  rw [replaceCIGo_amp_id _ _ cs h, replaceCIGo_amp_id _ _ cs h,
      replaceCIGo_amp_id _ _ cs h, replaceCIGo_amp_id _ _ cs h,
      replaceCIGo_amp_id _ _ cs h, replaceCIGo_amp_id _ _ cs h,
      replaceEntGo_amp_id _ cs h, replaceEntGo_amp_id _ cs h]

theorem replaceCRLF_mem {x : Char} :
    ∀ cs : List Char, x ∈ replaceCRLF cs → x ∈ cs ∨ x = '\n' := by
  intro cs
  induction cs using replaceCRLF.induct with
  | case1 rest ih =>
    intro hx
    rw [replaceCRLF] at hx
    rcases List.mem_cons.1 hx with h | h
    · exact Or.inr h
    · rcases ih h with h2 | h2
      · exact Or.inl (by simp [h2])
      · exact Or.inr h2
  | case2 c rest hne ih =>
    intro hx
    rw [replaceCRLF.eq_2 c rest hne] at hx
    rcases List.mem_cons.1 hx with h | h
    · exact Or.inl (by simp [h])
    · rcases ih h with h2 | h2
      · exact Or.inl (List.mem_cons_of_mem c h2)
      · exact Or.inr h2
  | case3 =>
    intro hx
    simp [replaceCRLF] at hx

theorem replaceCRLF_no_cr_id :
    ∀ cs : List Char, (∀ c ∈ cs, c ≠ '\r') → replaceCRLF cs = cs := by
  intro cs
  induction cs using replaceCRLF.induct with
  | case1 rest ih =>
    intro h
    exact absurd rfl (h '\r' (by simp))
  | case2 c rest hne ih =>
    intro h
    rw [replaceCRLF.eq_2 c rest hne]
    exact congrArg (c :: ·) (ih fun d hd => h d (List.mem_cons_of_mem c hd))
  | case3 => intro _; rfl

theorem map_id_of_fix {f : Char → Char} :
    ∀ l : List Char, (∀ c ∈ l, f c = c) → l.map f = l := by
  intro l
  induction l with
  | nil => intro _; rfl
  | cons c cs ih =>
    intro h
    simp only [List.map_cons, h c (List.mem_cons_self c cs)]
    exact congrArg (c :: ·) (ih fun d hd => h d (List.mem_cons_of_mem c hd))

theorem crToNl_ne_cr (c : Char) : crToNl c ≠ '\r' := by
  unfold crToNl
  split
  · decide
  · assumption

theorem nbspToSp_eq_of_ne {c x : Char} (hx : x ≠ ' ') (h : nbspToSp c = x) : c = x := by
  unfold nbspToSp at h
  split at h
  · exact absurd h.symm hx
  · exact h

theorem crToNl_eq_of_ne {c x : Char} (hx : x ≠ '\n') (h : crToNl c = x) : c = x := by
  unfold crToNl at h
  split at h
  · exact absurd h.symm hx
  · exact h

/-- C2 amended: `normalizeText` is idempotent on every input that contains
no ampersand (entity decoding is then the identity and the newline/NBSP
passes leave nothing for a second pass to change); the counterexample shows
the restriction is necessary. -/
theorem normalizeText_idempotent_no_amp (s : String) (h : '&' ∉ s.data) :
    normalizeText (normalizeText s) = normalizeText s := by
  have hne : ∀ c ∈ s.data, c ≠ '&' := fun c hc he => h (he ▸ hc)
  have key : normalizeTextL (normalizeTextL s.data) = normalizeTextL s.data := by
    have hdec : decodeEntitiesL s.data = s.data := decodeEntitiesL_amp_id s.data hne
    have hyval : normalizeTextL s.data = ((replaceCRLF s.data).map crToNl).map nbspToSp := by
      unfold normalizeTextL
      rw [hdec]
    set y := normalizeTextL s.data with hy
    have hyn : ∀ c ∈ y, c ≠ '&' ∧ c ≠ '\r' ∧ c.toNat ≠ 0xa0 := by
      intro c hc
      rw [hyval] at hc
      rcases List.mem_map.1 hc with ⟨d, hd, hdc⟩
      rcases List.mem_map.1 hd with ⟨e, he, hed⟩
      refine ⟨?_, ?_, ?_⟩
      · intro hamp
        have hd2 : d = '&' := nbspToSp_eq_of_ne (by decide) (hamp ▸ hdc)
        have he2 : e = '&' := crToNl_eq_of_ne (by decide) (hd2 ▸ hed)
        rcases replaceCRLF_mem s.data (he2 ▸ he) with h2 | h2
        · exact hne '&' h2 rfl
        · exact absurd h2 (by decide)
      · intro hcr
        have hd2 : d = '\r' := nbspToSp_eq_of_ne (by decide) (hcr ▸ hdc)
        exact crToNl_ne_cr e (hd2 ▸ hed)
      · intro ha0
        rw [← hdc] at ha0
        unfold nbspToSp at ha0
        split at ha0
        · exact absurd ha0 (by decide)
        · exact absurd ha0 (by assumption)
    have h1 : decodeEntitiesL y = y :=
      decodeEntitiesL_amp_id y (fun c hc => (hyn c hc).1)
    have h2 : replaceCRLF y = y :=
      replaceCRLF_no_cr_id y (fun c hc => (hyn c hc).2.1)
    have h3 : y.map crToNl = y := by
      refine map_id_of_fix y (fun c hc => ?_)
      unfold crToNl
      split
      · exact absurd (by assumption) (hyn c hc).2.1
      · rfl
    have h4 : y.map nbspToSp = y := by
      refine map_id_of_fix y (fun c hc => ?_)
      unfold nbspToSp
      split
      · exact absurd (by assumption) (hyn c hc).2.2
      · rfl
    show normalizeTextL y = y
    unfold normalizeTextL
    rw [h1, h2, h3, h4]
  show (⟨normalizeTextL (normalizeText s).data⟩ : String) = normalizeText s
  have hdat : (normalizeText s).data = normalizeTextL s.data := rfl
  rw [hdat, key]
  rfl

/-- Witness for the C2 amended theorem at a concrete ampersand-free input. -/
theorem normalizeText_idempotent_no_amp_witness :
    normalizeText (normalizeText "a\r\nb c") = normalizeText "a\r\nb c" :=
  normalizeText_idempotent_no_amp "a\r\nb c" (by decide)

/-!  ## Claim C3: the non-empty-lyrics invariant of the Validator  -/

deriving instance DecidableEq for Except

/-- A package whose single track has whitespace-only (but non-empty)
lyrics: it passes the `zod` `min(1)` check, yet its canonical lyrics trim
to the empty string. -/
def wsLyricsPackage : RawPackage :=
  { schema_version := Sum.inr 1, artist := "艺人",
    tracks := [{ id := none, title := "曲名", album := none, year := none,
                 lyricists := none, lyrics := " " }] }

/-- C3 counterexample: `normalizeLyricsPackage` succeeds on a track whose
lyrics are a single space, and the returned canonical track has an empty
(trimmed) lyrics string — the claimed "non-empty after trimming" invariant
fails. -/
theorem normalizeLyricsPackage_ws_lyrics :
    (normalizeLyricsPackage wsLyricsPackage).map
      (fun r => r.tracks.map (fun t => t.lyrics)) = Except.ok [""] := by decide

theorem dropWhile_ne_nil_of_exists {p : Char → Bool} {l : List Char}
    (h : ∃ c ∈ l, p c = false) : l.dropWhile p ≠ [] := by
  intro hnil
  rcases h with ⟨c, hc, hpc⟩
  have := (List.dropWhile_eq_nil_iff.1 hnil) c hc
  rw [this] at hpc
  exact Bool.true_eq_false.mp hpc

theorem trimL_ne_nil {cs : List Char} (h : ∃ c ∈ cs, jsWs c = false) :
    trimL cs ≠ [] := by
  rcases h with ⟨c, hc, hpc⟩
  have hsplit := List.takeWhile_append_dropWhile jsWs cs
  have hcd : c ∈ cs.dropWhile jsWs := by
    rcases List.mem_append.1 (hsplit ▸ hc) with h1 | h1
    · exact absurd (List.mem_takeWhile_imp h1) (by simp [hpc])
    · exact h1
  have hrev : c ∈ (cs.dropWhile jsWs).reverse := List.mem_reverse.2 hcd
  have hne : ((cs.dropWhile jsWs).reverse.dropWhile jsWs) ≠ [] :=
    dropWhile_ne_nil_of_exists ⟨c, hrev, hpc⟩
  unfold trimL trimEndL
  intro hnil
  exact hne (by simpa using hnil)

theorem jsTrim_ne_empty {s : String} (h : ∃ c ∈ s.data, jsWs c = false) :
    jsTrim s ≠ "" := by
  intro heq
  have : trimL s.data = [] := congrArg String.data heq
  exact trimL_ne_nil h this

/-- C3 amended: the Validator fails with a `SchemaViolation` whenever some
raw track's lyrics are the empty string, and on success every canonical
track's lyrics field is the trim of the corresponding raw lyrics, whose
untrimmed form was non-empty; the trimmed field is non-empty whenever the
raw lyrics contain a non-whitespace character (the counterexample shows
whitespace-only raw lyrics are the one gap). -/
theorem normalizeLyricsPackage_lyrics_invariant (p : RawPackage) :
    ((∃ t ∈ p.tracks, t.lyrics = "") →
      normalizeLyricsPackage p = Except.error SchemaViolation.zodError) ∧
    (∀ r, normalizeLyricsPackage p = Except.ok r →
      r.tracks.map (fun t => t.lyrics) = p.tracks.map (fun t => jsTrim t.lyrics) ∧
      (∀ t ∈ p.tracks, t.lyrics ≠ "") ∧
      (∀ t ∈ p.tracks, (∃ c ∈ t.lyrics.data, jsWs c = false) →
        (normTrack (jsTrim p.artist) t).lyrics ≠ "")) := by
  constructor
  · rintro ⟨t, ht, hempty⟩
    have hok : packageOk p = false := by
      unfold packageOk
      have : p.tracks.all (fun t => (1 ≤ t.title.length) && (1 ≤ t.lyrics.length)) = false := by
        rw [List.all_eq_false]
        refine ⟨t, ht, ?_⟩
        simp [hempty]
      simp [this]
    unfold normalizeLyricsPackage
    rw [hok]
    rfl
  · intro r hr
    unfold normalizeLyricsPackage at hr
    by_cases hok : packageOk p = true
    · rw [hok] at hr
      simp only [if_true] at hr
      have hpay := Except.ok.inj hr
      have htr : r.tracks = p.tracks.map (normTrack (jsTrim p.artist)) :=
        congrArg NormalizedPackage.tracks hpay.symm
      have hall : ∀ t ∈ p.tracks,
          decide (1 ≤ t.title.length) = true ∧ decide (1 ≤ t.lyrics.length) = true := by
        unfold packageOk at hok
        simp only [Bool.and_eq_true, List.all_eq_true] at hok
        exact hok.2
      refine ⟨?_, ?_, ?_⟩
      · rw [htr, List.map_map]
        rfl
      · intro t ht heq
        have := (hall t ht).2
        rw [heq] at this
        simp at this
      · intro t ht hex
        show jsTrim t.lyrics ≠ ""
        exact jsTrim_ne_empty hex
    · rw [Bool.not_eq_true] at hok
      rw [hok] at hr
      simp at hr

/-- Witness for the C3 amended theorem: a concrete failing package (empty
lyrics) and a concrete successful one with non-blank lyrics. -/
theorem normalizeLyricsPackage_lyrics_invariant_witness :
    normalizeLyricsPackage
        { schema_version := Sum.inr 1, artist := "A",
          tracks := [{ id := none, title := "T", album := none, year := none,
                       lyricists := none, lyrics := "" }] } =
      Except.error SchemaViolation.zodError ∧
    (normTrack (jsTrim "艺人")
        { id := none, title := "曲名", album := none, year := none,
          lyricists := none, lyrics := " 词 " }).lyrics ≠ "" := by
  constructor
  · exact (normalizeLyricsPackage_lyrics_invariant _).1
      ⟨_, List.mem_singleton.2 rfl, rfl⟩
  · have h := (normalizeLyricsPackage_lyrics_invariant
      { schema_version := Sum.inr 1, artist := "艺人",
        tracks := [{ id := none, title := "曲名", album := none, year := none,
                     lyricists := none, lyrics := " 词 " }] }).2
    have hok := h _ rfl
    exact hok.2.2 _ (List.mem_singleton.2 rfl) ⟨'词', by decide, by decide⟩

/-!  ## Claim C7: determinism and uniqueness of `makeId`  -/

/-- C7 counterexample: `makeId` is not injective on quadruples — a hyphen
can migrate between fields without changing the joined base, so two
distinct (artist, title, album, yearText) quadruples share one id. -/
theorem makeId_collision :
    makeId "a-b" "c" "d" "e" = makeId "a" "b-c" "d" "e" ∧
    (("a-b", "c", "d", "e") ≠ (("a" : String), "b-c", "d", "e")) := by decide

/-- Fields that contain neither a hyphen nor JS whitespace, so that the
`makeId` base joins them losslessly. -/
def sepFree (s : String) : Bool := s.data.all (fun c => !(jsWs c) && !(c == '-'))

theorem collapseWsGo_id (rep : Char) :
    ∀ cs : List Char, (∀ c ∈ cs, jsWs c = false) → collapseWsGo rep false cs = cs := by
  intro cs
  induction cs with
  | nil => intro _; rfl
  | cons c rest ih =>
    intro h
    have hc : jsWs c = false := h c (List.mem_cons_self c rest)
    unfold collapseWsGo
    rw [hc]
    simp only [Bool.false_eq_true, if_false]
    exact congrArg (c :: ·) (ih fun d hd => h d (List.mem_cons_of_mem c hd))

/-- Splitting at every hyphen (proof-side observer for `makeId`). -/
def splitDash : List Char → List (List Char)
  | [] => [[]]
  | c :: rest =>
    if c = '-' then [] :: splitDash rest
    else
      match splitDash rest with
      | [] => [[c]]
      | l :: ls => (c :: l) :: ls

theorem splitDash_ne_nil : ∀ cs : List Char, splitDash cs ≠ [] := by
  intro cs
  induction cs with
  | nil => simp [splitDash]
  | cons c rest ih =>
    unfold splitDash
    split
    · simp
    · match hr : splitDash rest with
      | [] => exact absurd hr ih
      | l :: ls => simp

theorem splitDash_cons_ne {c : Char} (hc : c ≠ '-') (l : List Char) :
    splitDash (c :: l) =
      (match splitDash l with
       | [] => [[c]]
       | x :: xs => (c :: x) :: xs) := by
  conv_lhs => unfold splitDash
  rw [if_neg hc]

theorem splitDash_append :
    ∀ xs ys : List Char, (∀ c ∈ xs, c ≠ '-') →
      splitDash (xs ++ '-' :: ys) = xs :: splitDash ys := by
  intro xs ys
  induction xs with
  | nil =>
    intro _
    simp [splitDash]
  | cons c rest ih =>
    intro h
    have hc : c ≠ '-' := h c (List.mem_cons_self c rest)
    have hrec := ih fun d hd => h d (List.mem_cons_of_mem c hd)
    show splitDash (c :: (rest ++ '-' :: ys)) = (c :: rest) :: splitDash ys
    rw [splitDash_cons_ne hc, hrec]

theorem strMk_inj {s t : String} (h : s.data = t.data) : s = t := by
  cases s with
  | mk d1 =>
    cases t with
    | mk d2 => exact congrArg String.mk h

theorem sepFree_no_ws {s : String} (hs : sepFree s = true) :
    ∀ c ∈ s.data, jsWs c = false := by
  intro c hcmem
  unfold sepFree at hs
  rw [List.all_eq_true] at hs
  have h2 := hs c hcmem
  rcases Bool.and_eq_true_iff.mp h2 with ⟨hA, _⟩
  simpa using hA

theorem makeIdBase_sep_free {a b c d : String} (ha : sepFree a = true)
    (hb : sepFree b = true) (hc : sepFree c = true) (hd : sepFree d = true) :
    makeIdBase a b c d =
      a.data ++ '-' :: (b.data ++ '-' :: (c.data ++ '-' :: d.data)) := by
  unfold makeIdBase collapseWs
  apply collapseWsGo_id
  intro x hx
  have hdash : jsWs '-' = false := by decide
  simp only [List.mem_append, List.mem_cons] at hx
  rcases hx with h1 | h1 | h1 | h1 | h1 | h1 | h1
  · exact sepFree_no_ws ha x h1
  · exact h1 ▸ hdash
  · exact sepFree_no_ws hb x h1
  · exact h1 ▸ hdash
  · exact sepFree_no_ws hc x h1
  · exact h1 ▸ hdash
  · exact sepFree_no_ws hd x h1

theorem sepFree_no_dash {s : String} (hs : sepFree s = true) :
    ∀ c ∈ s.data, c ≠ '-' := by
  intro c hcmem heq
  unfold sepFree at hs
  rw [List.all_eq_true] at hs
  have h2 := hs c hcmem
  rw [heq] at h2
  simp at h2

/-- C7 amended: `makeId` is a pure function of the quadruple (determinism
holds by construction), and on quadruples whose components contain neither
hyphens nor whitespace it is injective: ids agree exactly when the
quadruples agree.  The counterexample shows hyphnated components can
collide, so the restriction is necessary. -/
theorem makeId_inj_sep_free (a b c d a2 b2 c2 d2 : String)
    (ha : sepFree a = true) (hb : sepFree b = true) (hc : sepFree c = true)
    (hd : sepFree d = true) (ha2 : sepFree a2 = true) (hb2 : sepFree b2 = true)
    (hc2 : sepFree c2 = true) (hd2 : sepFree d2 = true) :
    makeId a b c d = makeId a2 b2 c2 d2 ↔ (a = a2 ∧ b = b2 ∧ c = c2 ∧ d = d2) := by
  constructor
  · intro h
    have hdata := congrArg String.data h
    have e1 : (makeId a b c d).data =
        makeIdBase a b c d ++ '-' :: toBase36 (hashStringNat (makeIdBase a b c d)) := rfl
    have e2 : (makeId a2 b2 c2 d2).data =
        makeIdBase a2 b2 c2 d2 ++ '-' :: toBase36 (hashStringNat (makeIdBase a2 b2 c2 d2)) := rfl
    rw [e1, e2, makeIdBase_sep_free ha hb hc hd, makeIdBase_sep_free ha2 hb2 hc2 hd2] at hdata
    have hsp := congrArg splitDash hdata
    simp only [List.append_assoc, List.cons_append] at hsp
    rw [splitDash_append _ _ (sepFree_no_dash ha),
        splitDash_append _ _ (sepFree_no_dash hb),
        splitDash_append _ _ (sepFree_no_dash hc),
        splitDash_append _ _ (sepFree_no_dash hd),
        splitDash_append _ _ (sepFree_no_dash ha2),
        splitDash_append _ _ (sepFree_no_dash hb2),
        splitDash_append _ _ (sepFree_no_dash hc2),
        splitDash_append _ _ (sepFree_no_dash hd2)] at hsp
    simp only [List.cons.injEq] at hsp
    exact ⟨strMk_inj hsp.1, strMk_inj hsp.2.1, strMk_inj hsp.2.2.1,
      strMk_inj hsp.2.2.2.1⟩
  · rintro ⟨rfl, rfl, rfl, rfl⟩
    rfl

/-- Witness for the C7 amended theorem at concrete separator-free fields. -/
theorem makeId_inj_sep_free_witness :
    (makeId "艺人" "曲名" "专辑" "2024" = makeId "艺人" "曲名" "专辑" "2023") ↔
      ((("艺人" : String) = "艺人") ∧ (("曲名" : String) = "曲名") ∧
       (("专辑" : String) = "专辑") ∧ (("2024" : String) = "2023")) :=
  makeId_inj_sep_free "艺人" "曲名" "专辑" "2024" "艺人" "曲名" "专辑" "2023"
    (by decide) (by decide) (by decide) (by decide)
    (by decide) (by decide) (by decide) (by decide)

/-!  ## Claim C8: year normalization  -/

/-- The non-integral JSON number 2024.5 (as the exact rational 4049/2). -/
def nonIntegralYear : ℚ := ⟨4049, 2, by decide, by decide⟩

/-- C8 counterexample: `z.number()` admits non-integral years and
`Number.isFinite(2024.5)` holds, so `normalizeYear` passes 2024.5 straight
through as the year — refuting the claim's "year is always an integer or
null" (a rational is an integer exactly when its denominator is 1). -/
theorem normalizeYear_nonintegral :
    normalizeYear (some (Sum.inr nonIntegralYear)) =
      (some nonIntegralYear, "2024.5") ∧
    nonIntegralYear.den ≠ 1 := by decide

theorem intRender (n : Int) :
    (if n < 0 then "-" ++ toString n.natAbs else toString n.natAbs) = toString n := by
  match n with
  | Int.ofNat m =>
    rw [if_neg (by exact Int.not_lt.mpr (Int.ofNat_nonneg m))]
    rfl
  | Int.negSucc m =>
    rw [if_pos (Int.negSucc_lt_zero m)]
    rfl

theorem jsNumToString_int (q : ℚ) (h : q.den = 1) : jsNumToString q = toString q.num := by
  unfold jsNumToString
  dsimp only
  rw [h, Nat.mod_one, Nat.div_one]
  rw [show decFracDigits 30 0 1 = [] from rfl]
  simp only [List.isEmpty_nil, if_true]
  exact intRender q.num

/-- C8 amended: absent or empty year input yields the null year with the
未知 sentinel; a successful string `parseInt` yields that integer as the
year with its decimal rendering as yearText; a failed parse yields a null
year with the raw original string; a numeric input is passed through
unchanged with its JS rendering — so an integral number yields that
integer with its decimal rendering, but a non-integral number yields a
non-integral year (the counterexample), and "year is an integer or null"
holds only for string or integral inputs. -/
theorem normalizeYear_spec :
    (normalizeYear none = (none, "未知")) ∧
    (normalizeYear (some (Sum.inl "")) = (none, "未知")) ∧
    (∀ s : String, s ≠ "" → ∀ n : Int, jsParseInt s = some n →
      normalizeYear (some (Sum.inl s)) = (some (n : ℚ), toString n)) ∧
    (∀ s : String, s ≠ "" → jsParseInt s = none →
      normalizeYear (some (Sum.inl s)) = (none, s)) ∧
    (∀ q : ℚ, normalizeYear (some (Sum.inr q)) = (some q, jsNumToString q)) ∧
    (∀ q : ℚ, q.den = 1 → jsNumToString q = toString q.num) := by
  refine ⟨rfl, by decide, ?_, ?_, fun q => rfl, fun q h => jsNumToString_int q h⟩
  · intro s hs n hp
    simp only [normalizeYear]
    rw [if_neg hs, hp]
  · intro s hs hp
    simp only [normalizeYear]
    rw [if_neg hs, hp]

/-- Witness for the C8 amended theorem: a parse success with trailing
text, a parse failure keeping the raw string, and an integral numeric
input rendered as its integer. -/
theorem normalizeYear_spec_witness :
    normalizeYear (some (Sum.inl "2024年")) =
      (some ((2024 : ℤ) : ℚ), toString (2024 : ℤ)) ∧
    normalizeYear (some (Sum.inl "约三千年")) = (none, "约三千年") ∧
    jsNumToString ((2024 : ℤ) : ℚ) = toString ((2024 : ℤ) : ℚ).num :=
  ⟨normalizeYear_spec.2.2.1 "2024年" (by decide) 2024 (by decide),
   normalizeYear_spec.2.2.2.1 "约三千年" (by decide) (by decide),
   normalizeYear_spec.2.2.2.2.2 ((2024 : ℤ) : ℚ) (by decide)⟩

/-!  ## Claim C9: lyricist normalization  -/

/-- Splitting at every single separator character (the specification's
plain description of splitting, before empties are dropped).  Unlike
`splitRuns` it does not merge separator runs; after trimming and dropping
empty entries the two agree, which `splitRuns_spec` below proves. -/
def splitEvery (isSep : Char → Bool) : List Char → List (List Char)
  | [] => [[]]
  | c :: rest =>
    if isSep c then [] :: splitEvery isSep rest
    else
      match splitEvery isSep rest with
      | [] => [[c]]
      | l :: ls => (c :: l) :: ls

/-- The separator set the claim asserts: half/full-width comma, slash,
pipe, and middle dot. -/
def claimSep (c : Char) : Bool :=
  c == ',' || c == '，' || c == '/' || c == '|' || c == '·'

/-- The lyricists field exactly as the claim describes it: split on the
claimed separators, trim, drop empties, deduplicate keeping first
occurrences. -/
def claimedLyricists (s : String) : List String :=
  dedupFirst (((splitEvery claimSep s.data).map (fun l => String.mk (trimL l))).filter
    (fun x => x != ""))

/-- C9 counterexample: the Validator neither deduplicates lyricists nor
splits on the middle dot, so on concrete inputs its output differs from
the claimed construction. -/
theorem normalizeLyricists_no_dedup :
    normalizeLyricists (some (Sum.inl "张三,张三")) = ["张三", "张三"] ∧
    claimedLyricists "张三,张三" = ["张三"] ∧
    normalizeLyricists (some (Sum.inl "王力宏·陶喆")) = ["王力宏·陶喆"] ∧
    claimedLyricists "王力宏·陶喆" = ["王力宏", "陶喆"] := by decide

/-- The specification-side lyricists pipeline with the source's actual
separator set and no deduplication: split at every separator, trim, drop
empties. -/
def specLyricistPipeline (s : String) : List String :=
  ((splitEvery nonWordSep s.data).map (fun l => String.mk (trimL l))).filter
    (fun x => x != "")

/-- `specLyricistPipeline` lifted to the optional string-or-array input. -/
def specLyricists : Option (String ⊕ List String) → List String
  | none => []
  | some (Sum.inl s) => specLyricistPipeline s
  | some (Sum.inr arr) => specLyricistPipeline (String.intercalate " " arr)

theorem splitEvery_cons_sep {sep : Char → Bool} {c : Char} (hc : sep c = true)
    (l : List Char) : splitEvery sep (c :: l) = [] :: splitEvery sep l := by
  conv_lhs => unfold splitEvery
  rw [if_pos hc]

theorem splitEvery_cons_ne {sep : Char → Bool} {c : Char} (hc : sep c = false)
    (l : List Char) :
    splitEvery sep (c :: l) =
      (match splitEvery sep l with
       | [] => [[c]]
       | x :: xs => (c :: x) :: xs) := by
  conv_lhs => unfold splitEvery
  rw [if_neg (by simp [hc])]

theorem splitRuns_sep_nil {sep : Char → Bool} {c : Char} (hc : sep c = true) :
    splitRuns sep [c] = [[], []] := by
  conv_lhs => unfold splitRuns
  rw [if_pos hc]
  rfl

theorem splitRuns_sep_sep {sep : Char → Bool} {c d : Char} (hc : sep c = true)
    (hd : sep d = true) (l : List Char) :
    splitRuns sep (c :: d :: l) = splitRuns sep (d :: l) := by
  conv_lhs => unfold splitRuns
  rw [if_pos hc]
  show (if sep d = true then splitRuns sep (d :: l) else [] :: splitRuns sep (d :: l)) = _
  rw [if_pos hd]

theorem splitRuns_sep_nonsep {sep : Char → Bool} {c d : Char} (hc : sep c = true)
    (hd : sep d = false) (l : List Char) :
    splitRuns sep (c :: d :: l) = [] :: splitRuns sep (d :: l) := by
  conv_lhs => unfold splitRuns
  rw [if_pos hc]
  show (if sep d = true then splitRuns sep (d :: l) else [] :: splitRuns sep (d :: l)) = _
  rw [if_neg (by simp [hd])]

theorem splitRuns_nonsep {sep : Char → Bool} {c : Char} (hc : sep c = false)
    (l : List Char) :
    splitRuns sep (c :: l) =
      (match splitRuns sep l with
       | [] => [[c]]
       | x :: xs => (c :: x) :: xs) := by
  conv_lhs => unfold splitRuns
  rw [if_neg (by simp [hc])]

theorem splitBoth (sep : Char → Bool) :
    ∀ cs : List Char, ∃ h t1 t2,
      splitRuns sep cs = h :: t1 ∧ splitEvery sep cs = h :: t2 ∧
      ((t1.map (fun l => String.mk (trimL l))).filter (fun x => x != "") =
       (t2.map (fun l => String.mk (trimL l))).filter (fun x => x != "")) := by
  intro cs
  induction cs with
  | nil => exact ⟨[], [], [], rfl, rfl, rfl⟩
  | cons c rest ih =>
    rcases ih with ⟨h, t1, t2, hr, he, hf⟩
    cases hsep : sep c with
    | true =>
      cases rest with
      | nil =>
        exact ⟨[], [[]], [[]], splitRuns_sep_nil hsep, by
          rw [splitEvery_cons_sep hsep]
          rfl, rfl⟩
      | cons d rest2 =>
        cases hd : sep d with
        | true =>
          have hhead : h = [] := by
            rw [splitEvery_cons_sep hd] at he
            exact (List.cons_eq_cons.1 he).1.symm
          refine ⟨[], t1, [] :: t2, ?_, ?_, ?_⟩
          · rw [splitRuns_sep_sep hsep hd, hr, hhead]
          · rw [splitEvery_cons_sep hsep, he, hhead]
          · rw [hf]
            show _ = List.filter _ (("" : String) :: t2.map (fun l => String.mk (trimL l)))
            rw [List.filter_cons_of_neg (by decide)]
        | false =>
          refine ⟨[], h :: t1, h :: t2, ?_, ?_, ?_⟩
          · rw [splitRuns_sep_nonsep hsep hd, hr]
          · rw [splitEvery_cons_sep hsep, he]
          · simp only [List.map_cons, List.filter_cons, hf]
    | false =>
      refine ⟨c :: h, t1, t2, ?_, ?_, hf⟩
      · rw [splitRuns_nonsep hsep, hr]
      · rw [splitEvery_cons_ne hsep, he]

theorem splitTrimFilter_eq_spec (s : String) :
    splitTrimFilter s = specLyricistPipeline s := by
  obtain ⟨h, t1, t2, h1, h2, h3⟩ := splitBoth nonWordSep s.data
  unfold splitTrimFilter specLyricistPipeline
  rw [h1, h2]
  simp only [List.map_cons, List.filter_cons, h3]

theorem normalizeLyricists_eq_spec (v : Option (String ⊕ List String)) :
    normalizeLyricists v = specLyricists v := by
  match v with
  | none => rfl
  | some (Sum.inl s) =>
    by_cases hs : s = ""
    · subst hs
      decide
    · simp only [normalizeLyricists, specLyricists, if_neg hs]
      exact splitTrimFilter_eq_spec s
  | some (Sum.inr arr) =>
    simp only [normalizeLyricists, specLyricists]
    exact splitTrimFilter_eq_spec _

/-- C9 amended: the canonical lyricists field is obtained by splitting the
raw input on the source's separator set (ideographic and ASCII comma,
full-width comma, semicolon, slash, pipe — the middle dot is not a
separator), trimming each entry, dropping empty entries — with no
deduplication — and replacing an empty result by the single sentinel
`["佚名"]`, so the field is never empty. -/
theorem lyricists_field_spec (artist : String) (t : RawTrack) :
    (normTrack artist t).lyricists =
      (if (specLyricists t.lyricists).isEmpty then ["佚名"]
       else specLyricists t.lyricists) ∧
    (normTrack artist t).lyricists ≠ [] := by
  have hfield : (normTrack artist t).lyricists =
      (if (normalizeLyricists t.lyricists).isEmpty then ["佚名"]
       else normalizeLyricists t.lyricists) := rfl
  rw [hfield, normalizeLyricists_eq_spec]
  constructor
  · rfl
  · split
    · simp
    · rename_i hne
      simpa [List.isEmpty_iff] using hne

/-!  ## Claim C10: extraction output always satisfies the Validator's
artist and schema_version requirements  -/

theorem applyAlbumCtx_artist (st : ParseState) (inner : List Char)
    (y4 : Option (List Char)) (tl : List Char) (h : st.artist ≠ "") :
    (applyAlbumCtx st inner y4 tl).artist ≠ "" := by
  unfold applyAlbumCtx
  show (if String.mk (trimL tl) == "" then st.artist else String.mk (trimL tl)) ≠ ""
  split
  · exact h
  · rename_i hne
    exact fun he => hne (by rw [he]; rfl)

theorem flushDraft_artist (st : ParseState) : (flushDraft st).artist = st.artist := by
  unfold flushDraft
  match st.draft with
  | none => rfl
  | some d =>
    dsimp only []
    split <;> rfl

theorem stepLine_artist (st : ParseState) (l : String) (h : st.artist ≠ "") :
    (stepLine st l).artist ≠ "" := by
  unfold stepLine
  split
  · exact h
  · split
    · rename_i inner y4 tl heq
      exact applyAlbumCtx_artist st inner y4 tl h
    · split
      · show (flushDraft st).artist ≠ ""
        rw [flushDraft_artist]
        exact h
      · split
        · show (flushDraft st).artist ≠ ""
          rw [flushDraft_artist]
          exact h
        · split
          · exact h
          · dsimp only
            split
            · exact h
            · exact h

theorem firstCtx_artist :
    ∀ (lines : List String) (st : ParseState), st.artist ≠ "" →
      (firstCtx st lines).artist ≠ "" := by
  intro lines
  induction lines with
  | nil => intro st h; exact h
  | cons l ls ih =>
    intro st h
    unfold firstCtx
    split
    · exact ih st h
    · split
      · exact applyAlbumCtx_artist _ _ _ _ h
      · exact h

theorem foldl_stepLine_artist :
    ∀ (lines : List String) (st : ParseState), st.artist ≠ "" →
      (lines.foldl stepLine st).artist ≠ "" := by
  intro lines
  induction lines with
  | nil => intro st h; exact h
  | cons l ls ih =>
    intro st h
    exact ih (stepLine st l) (stepLine_artist st l h)

/-- C10: for every input text (with no `defaultArtist` option) the
extraction engine returns `schema_version = 1` and a non-empty artist
(initially the sentinel `"未知艺人"`, overwritten only by non-empty trimmed
album-line artists), so the package can never fail the Validator's
`schema_version` or non-empty-artist requirement. -/
theorem parseTextToPackage_artist_invariant (text : String) :
    (parseTextToPackage text none).schema_version = 1 ∧
    (parseTextToPackage text none).artist ≠ "" ∧
    1 ≤ (parseTextToPackage text none).artist.length := by
  have hart : (parseTextToPackage text none).artist ≠ "" := by
    show (flushDraft _).artist ≠ ""
    rw [flushDraft_artist]
    apply foldl_stepLine_artist
    apply firstCtx_artist
    decide
  refine ⟨rfl, hart, ?_⟩
  have hdata : (parseTextToPackage text none).artist.data ≠ [] := by
    intro hnil
    exact hart (strMk_inj hnil)
  exact List.length_pos.2 hdata

/-!  ## Claim C5: chorus-repetition dampening  -/

/-- The same line repeated `n` times, newline-separated (the shape of a
repeated chorus). -/
def repeatLines : Nat → String → String
  | 0, _ => ""
  | 1, line => line
  | n + 2, line => line ++ "\n" ++ repeatLines (n + 1) line

theorem splitNl_cons_nl (l : List Char) : splitNl ('\n' :: l) = [] :: splitNl l := by
  conv_lhs => unfold splitNl
  rw [if_pos rfl]

theorem splitNl_cons_ne {c : Char} (hc : c ≠ '\n') (l : List Char) :
    splitNl (c :: l) =
      (match splitNl l with
       | [] => [[c]]
       | x :: xs => (c :: x) :: xs) := by
  conv_lhs => unfold splitNl
  rw [if_neg hc]

theorem splitNl_ne_nil : ∀ cs : List Char, splitNl cs ≠ [] := by
  intro cs
  induction cs with
  | nil => simp [splitNl]
  | cons c rest ih =>
    by_cases hc : c = '\n'
    · subst hc
      rw [splitNl_cons_nl]
      simp
    · rw [splitNl_cons_ne hc]
      match hr : splitNl rest with
      | [] => exact absurd hr ih
      | l :: ls => simp

theorem splitNl_append (xs ys : List Char) :
    splitNl (xs ++ '\n' :: ys) = splitNl xs ++ splitNl ys := by
  induction xs with
  | nil =>
    rw [List.nil_append, splitNl_cons_nl]
    rfl
  | cons c rest ih =>
    by_cases hc : c = '\n'
    · subst hc
      rw [List.cons_append, splitNl_cons_nl, splitNl_cons_nl, ih]
      rfl
    · rw [List.cons_append, splitNl_cons_ne hc, splitNl_cons_ne hc, ih]
      match hr : splitNl rest with
      | [] => exact absurd hr (splitNl_ne_nil rest)
      | l :: ls => rfl

/-- The `seen` accumulator after `dedupGo` has consumed a list. -/
def seenAfter [BEq α] : List α → List α → List α
  | seen, [] => seen
  | seen, x :: xs =>
    if seen.contains x then seenAfter seen xs else seenAfter (x :: seen) xs

theorem dedupGo_cons [BEq α] (seen : List α) (x : α) (xs : List α) :
    dedupGo seen (x :: xs) =
      if seen.contains x then dedupGo seen xs else x :: dedupGo (x :: seen) xs := rfl

theorem seenAfter_cons [BEq α] (seen : List α) (x : α) (xs : List α) :
    seenAfter seen (x :: xs) =
      if seen.contains x then seenAfter seen xs else seenAfter (x :: seen) xs := rfl

theorem dedupGo_append [BEq α] :
    ∀ (l1 : List α) (seen l2 : List α),
      dedupGo seen (l1 ++ l2) = dedupGo seen l1 ++ dedupGo (seenAfter seen l1) l2 := by
  intro l1
  induction l1 with
  | nil => intro seen l2; rfl
  | cons x xs ih =>
    intro seen l2
    rw [List.cons_append, dedupGo_cons, dedupGo_cons, seenAfter_cons]
    split
    · exact ih seen l2
    · rw [List.cons_append, ih (x :: seen) l2]

theorem mem_seenAfter_of_mem [BEq α] [LawfulBEq α] {x : α} :
    ∀ (l seen : List α), (x ∈ seen ∨ x ∈ l) → x ∈ seenAfter seen l := by
  intro l
  induction l with
  | nil =>
    intro seen h
    rcases h with h | h
    · exact h
    · simp at h
  | cons y ys ih =>
    intro seen h
    unfold seenAfter
    split
    · rename_i hcon
      rcases h with h | h
      · exact ih seen (Or.inl h)
      · rcases List.mem_cons.1 h with h2 | h2
        · subst h2
          exact ih seen (Or.inl (List.elem_iff.1 hcon))
        · exact ih seen (Or.inr h2)
    · rcases h with h | h
      · exact ih (y :: seen) (Or.inl (List.mem_cons_of_mem y h))
      · rcases List.mem_cons.1 h with h2 | h2
        · subst h2
          exact ih (x :: seen) (Or.inl (List.mem_cons_self x seen))
        · exact ih (y :: seen) (Or.inr h2)

theorem dedupGo_all_seen [BEq α] [LawfulBEq α] :
    ∀ (l seen : List α), (∀ x ∈ l, x ∈ seen) → dedupGo seen l = [] := by
  intro l
  induction l with
  | nil => intro seen _; rfl
  | cons x xs ih =>
    intro seen h
    unfold dedupGo
    rw [if_pos (List.elem_iff.2 (h x (List.mem_cons_self x xs)))]
    exact ih seen fun y hy => h y (List.mem_cons_of_mem x hy)

theorem dedupFirst_append_subset [BEq α] [LawfulBEq α] (l1 l2 : List α)
    (h : ∀ x ∈ l2, x ∈ l1) : dedupFirst (l1 ++ l2) = dedupFirst l1 := by
  unfold dedupFirst
  rw [dedupGo_append l1 [] l2]
  rw [dedupGo_all_seen l2 (seenAfter [] l1)
    (fun x hx => mem_seenAfter_of_mem l1 [] (Or.inr (h x hx)))]
  exact List.append_nil _

/-- The trimmed non-blank lines of one copy of the line. -/
def lineCells (line : String) : List String :=
  (((splitNl line.data).map (fun l => String.mk (trimL l))).filter (fun s => s != ""))

theorem uniqueLinesOf_repeat (line : String) :
    ∀ n : Nat, uniqueLinesOf (repeatLines (n + 1) line) = uniqueLinesOf line := by
  have cells : ∀ m : Nat,
      (((splitNl (repeatLines (m + 1) line).data).map
        (fun l => String.mk (trimL l))).filter (fun s => s != "")) =
      (List.replicate (m + 1) (lineCells line)).flatten := by
    intro m
    induction m with
    | zero =>
      show lineCells line = _
      simp
    | succ k ih =>
      have hdata : (repeatLines (k + 2) line).data =
          line.data ++ '\n' :: (repeatLines (k + 1) line).data := by
        show (line ++ "\n" ++ repeatLines (k + 1) line).data = _
        rw [String.data_append, String.data_append, List.append_assoc]
        rfl
      rw [hdata, splitNl_append, List.map_append, List.filter_append, ih]
      rw [show (List.replicate (k + 1 + 1) (lineCells line)).flatten =
        lineCells line ++ (List.replicate (k + 1) (lineCells line)).flatten by
          rw [List.replicate_succ, List.flatten_cons]]
      rfl
  intro n
  unfold uniqueLinesOf
  rw [cells n]
  cases n with
  | zero =>
    show dedupFirst (List.replicate 1 (lineCells line)).flatten = _
    simp [lineCells]
  | succ k =>
    rw [List.replicate_succ, List.flatten_cons]
    rw [dedupFirst_append_subset _ _ ?_]
    · show dedupFirst (lineCells line) = _
      simp [lineCells]
    · intro x hx
      rcases List.mem_flatten.1 hx with ⟨l, hl, hxl⟩
      rcases List.eq_of_mem_replicate hl with rfl
      exact hxl

/-- C5: a track whose lyrics are one line repeated ten times produces
exactly the statistics of a single copy of that line: the per-track line
deduplication makes the repeated chorus count once. -/
theorem buildBigramStats_chorus_dampening (seg : String → List String)
    (limit : Nat) (includeSingle : Bool) (tr : TrackRecord) (line : String) :
    buildBigramStats seg [{ tr with lyrics := repeatLines 10 line }] limit includeSingle =
      buildBigramStats seg [{ tr with lyrics := line }] limit includeSingle := by
  have hUL : uniqueLinesOf (repeatLines 10 line) = uniqueLinesOf line :=
    uniqueLinesOf_repeat line 9
  have hTT : trackTokens seg includeSingle { tr with lyrics := repeatLines 10 line } =
      trackTokens seg includeSingle { tr with lyrics := line } := by
    unfold trackTokens uniqueTextOf
    dsimp only
    rw [hUL]
  unfold buildBigramStats countsOf
  simp only [List.foldl_cons, List.foldl_nil]
  rw [hTT]

/-!  ## Claim C4: shape of `buildBigramStats` output  -/

/-- A word track whose only line is the stop word 自己, neither of whose
characters is a stop character. -/
def selfTrack : TrackRecord :=
  { id := "t1", title := "曲", album := "专", year := none, yearText := "未知",
    lyricists := ["佚名"], lyrics := "自己", artist := "艺" }

/-- C4 counterexample: the bigram fallback applies no stop-word filter, so
a track whose deduplicated text is exactly the stop word 自己 puts 自己
into the returned statistics — both when the segmenter is unavailable
(`seg = fun _ => []`) and when it segments the text as the single word
自己 (which the stop-word filter then removes, leaving the fallback to
run). -/
theorem buildBigramStats_stopword_leak :
    ((buildBigramStats (fun _ => []) [selfTrack] 20 false).map (fun t => t.token) =
        ["自己"] ∧
      stopWords.contains "自己" = true) ∧
    (buildBigramStats (fun s => [s]) [selfTrack] 20 false).map (fun t => t.token) =
      ["自己"] := by decide

/-- The filter battery of the claim, as one boolean: non-empty, not
punctuation, contains CJK, long enough unless `includeSingle`, not a stop
word, not a single stop character. -/
def passesFilter (includeSingle : Bool) (token : String) : Bool :=
  (token != "") && !(isPunctuation token) && hasCjk token &&
    (includeSingle || 2 ≤ token.length) && !(stopWords.contains token) &&
    !(token.length == 1 && stopChars.contains (token.data.headD ' '))

/-- A fallback token: exactly two valid (CJK, non-stop) characters. -/
def isBigramShape (token : String) : Bool :=
  match token.data with
  | [c1, c2] => isValidCh c1 && isValidCh c2
  | _ => false

theorem segKeep_passes {incl : Bool} {s tok : String} (h : segKeep incl s = some tok) :
    passesFilter incl tok = true := by
  unfold segKeep at h
  dsimp only at h
  split_ifs at h with h1 h2 h3 h4 h5 h6
  · rcases Option.some.inj h with rfl
    unfold passesFilter
    simp only [Bool.and_eq_true, Bool.not_eq_true', Bool.or_eq_true]
    refine ⟨⟨⟨⟨⟨?_, ?_⟩, ?_⟩, ?_⟩, ?_⟩, ?_⟩
    · simpa using h1
    · simpa using h2
    · simpa using h3
    · by_cases hinc : incl = true
      · simp [hinc]
      · rw [Bool.not_eq_true] at hinc
        rw [hinc] at h4 ⊢
        simp only [Bool.not_false, Bool.true_and, decide_eq_true_eq] at h4
        simp only [Bool.false_or, decide_eq_true_eq]
        omega
    · simpa using h5
    · simpa using h6

theorem bigramsL_shape {tok : String} :
    ∀ cs : List Char, tok ∈ bigramsL cs → isBigramShape tok = true := by
  intro cs
  induction cs using bigramsL.induct with
  | case1 c1 c2 rest ih =>
    intro hmem
    unfold bigramsL at hmem
    rcases List.mem_append.1 hmem with h | h
    · split at h
      · rename_i hvalid
        rcases List.mem_singleton.1 h with rfl
        exact hvalid
      · simp at h
    · exact ih h
  | case2 cs hne =>
    intro hmem
    unfold bigramsL at hmem
    rcases cs with _ | ⟨a, _ | ⟨b, t⟩⟩
    · simp at hmem
    · simp at hmem
    · exact absurd rfl (hne a b t)

theorem trackTokens_ok (seg : String → List String) (incl : Bool) (tr : TrackRecord) :
    ∀ tok ∈ trackTokens seg incl tr,
      passesFilter incl tok = true ∨ isBigramShape tok = true := by
  intro tok hmem
  unfold trackTokens at hmem
  dsimp only at hmem
  split at hmem
  · exact Or.inr (bigramsL_shape _ hmem)
  · rcases List.mem_filterMap.1 hmem with ⟨s, _, hk⟩
    exact Or.inl (segKeep_passes hk)

theorem mem_mapSet {m : List (String × Nat)} {k : String} {v : Nat} :
    ∀ p ∈ mapSet m k v, p.1 = k ∨ p ∈ m := by
  induction m with
  | nil =>
    intro p hp
    rcases List.mem_singleton.1 hp with rfl
    exact Or.inl rfl
  | cons q rest ih =>
    intro p hp
    unfold mapSet at hp
    split at hp
    · rcases List.mem_cons.1 hp with rfl | h
      · exact Or.inl rfl
      · exact Or.inr (List.mem_cons_of_mem q h)
    · rcases List.mem_cons.1 hp with rfl | h
      · exact Or.inr (List.mem_cons_self _ _)
      · rcases ih p h with h2 | h2
        · exact Or.inl h2
        · exact Or.inr (List.mem_cons_of_mem q h2)

theorem foldl_bumpCount_keys {P : String → Prop} :
    ∀ (toks : List String) (m : List (String × Nat)),
      (∀ p ∈ m, P p.1) → (∀ t ∈ toks, P t) →
      ∀ p ∈ toks.foldl bumpCount m, P p.1 := by
  intro toks
  induction toks with
  | nil => intro m hm _ p hp; exact hm p hp
  | cons t ts ih =>
    intro m hm ht p hp
    refine ih (bumpCount m t) ?_ (fun u hu => ht u (List.mem_cons_of_mem t hu)) p hp
    intro q hq
    rcases mem_mapSet q hq with h | h
    · exact h ▸ ht t (List.mem_cons_self t ts)
    · exact hm q h

theorem countsOf_keys (seg : String → List String) (incl : Bool) :
    ∀ (tracks : List TrackRecord) (m : List (String × Nat)),
      (∀ p ∈ m, passesFilter incl p.1 = true ∨ isBigramShape p.1 = true) →
      ∀ p ∈ tracks.foldl (fun m tr => (trackTokens seg incl tr).foldl bumpCount m) m,
        passesFilter incl p.1 = true ∨ isBigramShape p.1 = true := by
  intro tracks
  induction tracks with
  | nil => intro m hm p hp; exact hm p hp
  | cons tr ts ih =>
    intro m hm p hp
    exact ih _ (foldl_bumpCount_keys _ m hm (trackTokens_ok seg incl tr)) p hp

theorem mem_insertDesc {x y : BigramToken} :
    ∀ l : List BigramToken, x ∈ insertDesc y l → x = y ∨ x ∈ l := by
  intro l
  induction l with
  | nil =>
    intro h
    exact Or.inl (List.mem_singleton.1 h)
  | cons z zs ih =>
    intro h
    unfold insertDesc at h
    split at h
    · rcases List.mem_cons.1 h with rfl | h2
      · exact Or.inl rfl
      · exact Or.inr h2
    · rcases List.mem_cons.1 h with rfl | h2
      · exact Or.inr (List.mem_cons_self _ _)
      · rcases ih h2 with h3 | h3
        · exact Or.inl h3
        · exact Or.inr (List.mem_cons_of_mem z h3)

theorem mem_sortDesc {x : BigramToken} :
    ∀ l : List BigramToken, x ∈ sortDesc l → x ∈ l := by
  intro l
  induction l with
  | nil => intro h; simp [sortDesc] at h
  | cons y ys ih =>
    intro h
    unfold sortDesc at h
    rcases mem_insertDesc _ h with rfl | h2
    · exact List.mem_cons_self _ _
    · exact List.mem_cons_of_mem y (ih h2)

theorem insertDesc_sorted {x : BigramToken} :
    ∀ l : List BigramToken, l.Pairwise (fun a b => b.count ≤ a.count) →
      (insertDesc x l).Pairwise (fun a b => b.count ≤ a.count) := by
  intro l
  induction l with
  | nil => intro _; simp [insertDesc]
  | cons y ys ih =>
    intro hs
    rcases List.pairwise_cons.1 hs with ⟨hy, hys⟩
    unfold insertDesc
    split
    · rename_i hle
      refine List.pairwise_cons.2 ⟨?_, hs⟩
      intro z hz
      rcases List.mem_cons.1 hz with rfl | h2
      · exact hle
      · exact le_trans (hy z h2) hle
    · rename_i hgt
      refine List.pairwise_cons.2 ⟨?_, ih hys⟩
      intro z hz
      rcases mem_insertDesc _ hz with rfl | h2
      · omega
      · exact hy z h2

theorem sortDesc_sorted :
    ∀ l : List BigramToken, (sortDesc l).Pairwise (fun a b => b.count ≤ a.count) := by
  intro l
  induction l with
  | nil => simp [sortDesc]
  | cons y ys ih => exact insertDesc_sorted _ ih

/-- C4 amended: for every segmenter, track collection, limit and
`includeSingle` flag, `buildBigramStats` returns at most `limit` tokens in
non-increasing count order, and every returned token either passed the full
segmentation filter battery (trim/punctuation/CJK/length/stop word/stop
character) or is a bigram-fallback token — two valid CJK non-stop
characters, to which the multi-character stop-word filter is not applied
(the counterexample shows that gap is real). -/
theorem buildBigramStats_shape (seg : String → List String) (tracks : List TrackRecord)
    (limit : Nat) (includeSingle : Bool) :
    (buildBigramStats seg tracks limit includeSingle).length ≤ limit ∧
    (buildBigramStats seg tracks limit includeSingle).Pairwise
      (fun a b => b.count ≤ a.count) ∧
    (∀ t ∈ buildBigramStats seg tracks limit includeSingle,
      passesFilter includeSingle t.token = true ∨ isBigramShape t.token = true) := by
  refine ⟨?_, ?_, ?_⟩
  · exact List.length_take_le _ _
  · exact List.Pairwise.sublist (List.take_sublist _ _) (sortDesc_sorted _)
  · intro t ht
    have h1 : t ∈ sortDesc ((countsOf seg includeSingle tracks).map
        (fun p => { token := p.1, count := p.2 })) :=
      List.mem_of_mem_take ht
    have h2 := mem_sortDesc _ h1
    rcases List.mem_map.1 h2 with ⟨p, hp, rfl⟩
    exact countsOf_keys seg includeSingle tracks [] (by intro q hq; simp at hq) p hp

/-!  ## Claim C6: snippet cap enforcement  -/

/-- Total contribution count recorded in the per-track map. -/
def sumCounts (m : List (String × Nat)) : Nat := (m.map (fun p => p.2)).sum

/-- The state of either outcome (continue or early return) of the inner
snippet loop. -/
def outState : SnipState ⊕ SnipState → SnipState
  | Sum.inl st => st
  | Sum.inr st => st

/-- The loop invariant of the snippet scan: bounded results, every result
contains the needle case-insensitively, results are registered in `seen`
and pairwise distinct, per-track counts are at most 2 and account for all
results. -/
def SnipInv (limit : Nat) (needle : String) (st : SnipState) : Prop :=
  st.results.length ≤ limit ∧
  (∀ r ∈ st.results, containsSeq needle.data (jsLowerStr r.line).data = true) ∧
  (∀ r ∈ st.results, r.line ∈ st.seen) ∧
  st.results.Pairwise (fun a b => a.line ≠ b.line) ∧
  (∀ kn ∈ st.perTrack, kn.2 ≤ 2) ∧
  sumCounts st.perTrack = st.results.length

theorem mem_mapSet_val {m : List (String × Nat)} {k : String} {v : Nat} :
    ∀ p ∈ mapSet m k v, p = (k, v) ∨ p ∈ m := by
  induction m with
  | nil =>
    intro p hp
    exact Or.inl (List.mem_singleton.1 hp)
  | cons q rest ih =>
    intro p hp
    unfold mapSet at hp
    split at hp
    · rcases List.mem_cons.1 hp with rfl | h
      · exact Or.inl rfl
      · exact Or.inr (List.mem_cons_of_mem q h)
    · rcases List.mem_cons.1 hp with rfl | h
      · exact Or.inr (List.mem_cons_self _ _)
      · rcases ih p h with h2 | h2
        · exact Or.inl h2
        · exact Or.inr (List.mem_cons_of_mem q h2)

theorem sumCounts_bump (k : String) :
    ∀ m : List (String × Nat), sumCounts (mapSet m k (mapGet m k + 1)) = sumCounts m + 1 := by
  intro m
  induction m with
  | nil => rfl
  | cons q rest ih =>
    by_cases hk : q.1 == k
    · have hfind : mapGet (q :: rest) k = q.2 := by
        unfold mapGet
        rw [List.find?_cons]
        rw [hk]
      have hset : mapSet (q :: rest) k (mapGet (q :: rest) k + 1) =
          (k, q.2 + 1) :: rest := by
        show (if q.1 == k then _ else _) = _
        rw [if_pos hk, hfind]
      rw [hset]
      unfold sumCounts
      simp only [List.map_cons, List.sum_cons]
      omega
    · have hfind : mapGet (q :: rest) k = mapGet rest k := by
        unfold mapGet
        rw [List.find?_cons]
        rw [Bool.not_eq_true] at hk
        rw [hk]
      have hset : mapSet (q :: rest) k (mapGet (q :: rest) k + 1) =
          q :: mapSet rest k (mapGet rest k + 1) := by
        show (if q.1 == k then _ else _) = _
        rw [if_neg (by simpa using hk), hfind]
      rw [hset]
      unfold sumCounts at ih ⊢
      simp only [List.map_cons, List.sum_cons, ih]
      omega

theorem snipPush_inv {limit : Nat} {needle : String} {st : SnipState}
    {tid ttl line : String} (h : SnipInv limit needle st)
    (hlen : ¬ limit ≤ st.results.length)
    (hcon : containsSeq needle.data (jsLowerStr line).data = true)
    (hseen : ¬ st.seen.contains line = true)
    (hcnt : ¬ 2 ≤ mapGet st.perTrack tid) :
    SnipInv limit needle
      { seen := line :: st.seen,
        results := st.results ++ [{ line := line, title := ttl }],
        perTrack := mapSet st.perTrack tid (mapGet st.perTrack tid + 1) } := by
  obtain ⟨h1, h2, h3, h4, h5, h6⟩ := h
  have hnotseen : line ∉ st.seen := fun hc => hseen (List.elem_iff.2 hc)
  refine ⟨?_, ?_, ?_, ?_, ?_, ?_⟩
  · simp only [List.length_append, List.length_singleton]
    omega
  · intro r hr
    rcases List.mem_append.1 hr with hr2 | hr2
    · exact h2 r hr2
    · rcases List.mem_singleton.1 hr2 with rfl
      exact hcon
  · intro r hr
    rcases List.mem_append.1 hr with hr2 | hr2
    · exact List.mem_cons_of_mem _ (h3 r hr2)
    · rcases List.mem_singleton.1 hr2 with rfl
      exact List.mem_cons_self _ _
  · rw [List.pairwise_append]
    refine ⟨h4, List.pairwise_singleton _ _, ?_⟩
    intro a ha b hb
    rcases List.mem_singleton.1 hb with rfl
    intro heq
    have h8 : a.line ∈ st.seen := h3 a ha
    rw [show ({ line := line, title := ttl } : Snip).line = line from rfl] at heq
    exact hnotseen (heq ▸ h8)
  · intro kn hkn
    rcases mem_mapSet_val kn hkn with rfl | h7
    · show mapGet st.perTrack tid + 1 ≤ 2
      omega
    · exact h5 kn h7
  · rw [sumCounts_bump, h6]
    simp

theorem snipLines_inv (limit : Nat) (needle tid ttl : String) :
    ∀ (ls : List String) (st : SnipState), SnipInv limit needle st →
      SnipInv limit needle (outState (snipLines limit needle tid ttl ls st)) := by
  intro ls
  induction ls with
  | nil => intro st h; exact h
  | cons l ls ih =>
    intro st h
    unfold snipLines
    dsimp only
    split
    · exact h
    · split
      · exact ih st h
      · split
        · exact ih st h
        · split
          · exact ih st h
          · split
            · exact ih st h
            · rename_i hlen hblank hcon hseen hcnt
              refine ih _ (snipPush_inv h hlen ?_ hseen hcnt)
              simpa using hcon

theorem snipTracks_inv (limit : Nat) (needle : String) :
    ∀ (tracks : List TrackRecord) (st : SnipState), SnipInv limit needle st →
      SnipInv limit needle (snipTracks limit needle tracks st) := by
  intro tracks
  induction tracks with
  | nil => intro st h; exact h
  | cons t ts ih =>
    intro st h
    unfold snipTracks
    have hinner := snipLines_inv limit needle t.id t.title (jsLines t.lyrics) st h
    match heq : snipLines limit needle t.id t.title (jsLines t.lyrics) st with
    | Sum.inl st1 =>
      rw [heq] at hinner
      exact ih st1 hinner
    | Sum.inr st1 =>
      rw [heq] at hinner
      exact hinner

theorem initSnipState_inv (limit : Nat) (needle : String) :
    SnipInv limit needle initSnipState := by
  refine ⟨?_, ?_, ?_, ?_, ?_, ?_⟩ <;> simp [initSnipState, sumCounts]

/-- C6: for any track collection with pairwise distinct ids and any term,
the snippet locator returns at most 8 results, every returned (trimmed)
line contains the lower-cased trimmed term, no two results share a line,
and — for a non-empty trimmed term, when the scan actually runs — the
per-track contribution counts are all at most 2 and account exactly for
the returned results. -/
theorem extractFocusedSnippets_caps (tracks : List TrackRecord) (term : String)
    (_hids : tracks.Pairwise (fun a b => a.id ≠ b.id)) :
    (extractFocusedSnippets tracks term 8).length ≤ 8 ∧
    (∀ r ∈ extractFocusedSnippets tracks term 8,
      containsSeq (jsLowerStr (jsTrim term)).data (jsLowerStr r.line).data = true) ∧
    (extractFocusedSnippets tracks term 8).Pairwise (fun a b => a.line ≠ b.line) ∧
    (jsLowerStr (jsTrim term) ≠ "" →
      (∀ kn ∈ (snipTracks 8 (jsLowerStr (jsTrim term)) tracks initSnipState).perTrack,
        kn.2 ≤ 2) ∧
      sumCounts (snipTracks 8 (jsLowerStr (jsTrim term)) tracks initSnipState).perTrack =
        (extractFocusedSnippets tracks term 8).length) := by
  by_cases hempty : jsLowerStr (jsTrim term) = ""
  · have hval : extractFocusedSnippets tracks term 8 = [] := by
      unfold extractFocusedSnippets
      rw [if_pos hempty]
    rw [hval]
    refine ⟨by simp, by simp, by simp, fun hne => absurd hempty hne⟩
  · have hval : extractFocusedSnippets tracks term 8 =
        (snipTracks 8 (jsLowerStr (jsTrim term)) tracks initSnipState).results := by
      unfold extractFocusedSnippets
      rw [if_neg hempty]
    obtain ⟨h1, h2, h3, h4, h5, h6⟩ :=
      snipTracks_inv 8 (jsLowerStr (jsTrim term)) tracks initSnipState
        (initSnipState_inv 8 (jsLowerStr (jsTrim term)))
    rw [hval]
    exact ⟨h1, h2, h4, fun _ => ⟨h5, h6⟩⟩

/-- Witness for C6 at a concrete two-track collection with distinct ids
and a term that matches repeated and distinct lines. -/
theorem extractFocusedSnippets_caps_witness :
    ((extractFocusedSnippets
        [{ id := "a", title := "甲", album := "专", year := none, yearText := "未知",
           lyricists := ["佚名"], lyrics := "海的回声\n海的回声\n海与光\n海平面\n无关的行", artist := "艺" },
         { id := "b", title := "乙", album := "专", year := none, yearText := "未知",
           lyricists := ["佚名"], lyrics := "听海\n海的回声", artist := "艺" }]
        "海" 8).length ≤ 8) ∧
    (extractFocusedSnippets
        [{ id := "a", title := "甲", album := "专", year := none, yearText := "未知",
           lyricists := ["佚名"], lyrics := "海的回声\n海的回声\n海与光\n海平面\n无关的行", artist := "艺" },
         { id := "b", title := "乙", album := "专", year := none, yearText := "未知",
           lyricists := ["佚名"], lyrics := "听海\n海的回声", artist := "艺" }]
        "海" 8).Pairwise (fun a b => a.line ≠ b.line) := by
  have h := extractFocusedSnippets_caps
    [{ id := "a", title := "甲", album := "专", year := none, yearText := "未知",
       lyricists := ["佚名"], lyrics := "海的回声\n海的回声\n海与光\n海平面\n无关的行", artist := "艺" },
     { id := "b", title := "乙", album := "专", year := none, yearText := "未知",
       lyricists := ["佚名"], lyrics := "听海\n海的回声", artist := "艺" }]
    "海" (by simp)
  exact ⟨h.1, h.2.2.1⟩
